import Mathlib

/-!
Verification of the numcsv reader/writer (numcsv.go) of btracey/gobench.

Modelling conventions:
* Go strings are `List Char` (`Str`); a text stream is the list of lines the
  underlying `bufio.Scanner` will deliver, plus an optional scanner error that
  `Scanner.Err` reports once the stream is exhausted.
* Go `int` is `Int`.
* A Go `float64` value is represented by its source token (`GoFloat := Str`):
  no claim in scope depends on the numeric value of a field, so
  `strconv.ParseFloat` is modelled as validation against the decimal literal
  grammar of strconv (`parseFloatOk`), and `strconv.FormatFloat` as the
  identity on the representation.  Out-of-range (`ErrRange`) behaviour of
  `ParseFloat` is not modelled; no claim in scope distinguishes it.
* Functions returning Go `(value, error)` pairs return both components, so the
  nil-row/nil-error shapes of the source are visible in the model.
-/

namespace Numcsv

/-- Go strings are modelled as lists of characters. -/
abbrev Str := List Char

/-- Convenience conversion from Lean string literals. -/
def strL (s : String) : Str := s.toList

/-- The white-space predicate of Go (`unicode.IsSpace`): ASCII spaces plus the
Latin-1 and Unicode White_Space code points. -/
def isGoSpace (c : Char) : Bool :=
  c = ' ' || c = '\t' || c = '\n' || (c = Char.ofNat 11) || (c = Char.ofNat 12) ||
  c = '\r' || c = Char.ofNat 0x85 || c = Char.ofNat 0xA0 ||
  c = Char.ofNat 0x1680 ||
  (0x2000 ≤ c.toNat && c.toNat ≤ 0x200A) ||
  c = Char.ofNat 0x2028 || c = Char.ofNat 0x2029 || c = Char.ofNat 0x202F ||
  c = Char.ofNat 0x205F || c = Char.ofNat 0x3000

/-- Model of Go `strings.TrimSpace`: drop white space from both ends. -/
def trimSpace (s : Str) : Str :=
  ((s.dropWhile isGoSpace).reverse.dropWhile isGoSpace).reverse

/-- Model of Go `strings.TrimPrefix`. -/
def trimPfx (pre s : Str) : Str :=
  if pre.isPrefixOf s then s.drop pre.length else s

/-- Model of Go `strings.TrimSuffix`. -/
def trimSfx (suf s : Str) : Str :=
  if suf.isSuffixOf s then s.take (s.length - suf.length) else s

/-- Worker for `splitGo` (non-empty separator): scan for the leftmost
occurrence of `sep`, emitting the accumulated piece (held reversed in `acc`).
The fuel argument (every step consumes at least one character, so
`length + 1` is always enough — see `splitAuxF_fuel`) keeps the recursion
structural. -/
def splitAuxF (sep : Str) : Nat → Str → Str → List Str
  | 0, acc, s => [acc.reverse ++ s]
  | fuel + 1, acc, s =>
    match s with
    | [] => [acc.reverse]
    | x :: xs =>
      if sep.isPrefixOf (x :: xs) then
        acc.reverse :: splitAuxF sep fuel [] (xs.drop (sep.length - 1))
      else
        splitAuxF sep fuel (x :: acc) xs

/-- The split scan with sufficient fuel. -/
def splitAux (sep : Str) (acc : Str) (s : Str) : List Str :=
  splitAuxF sep (s.length + 1) acc s

/-- Model of Go `strings.Split`: split around each leftmost occurrence of the
separator; an empty separator splits into single characters. -/
def splitGo (sep s : Str) : List Str :=
  if sep = [] then s.map (fun c => [c]) else splitAux sep [] s

/-- The non-blank token list of a line: split on the delimiter, trim each
token, drop tokens that are empty after trimming.  This is the shared token
computation of `Reader.ReadHeading` (numcsv.go:64-70) and `Reader.Read`
(numcsv.go:95-104). -/
def nonBlank (sep line : Str) : List Str :=
  ((splitGo sep line).map trimSpace).filter (fun t => t ≠ [])

/-- Consume an optional sign, as `strconv` does. -/
def stripSign (s : Str) : Str :=
  match s with
  | '+' :: r => r
  | '-' :: r => r
  | _ => s

/-- Count the leading decimal digits and return the rest. -/
def spanDigits : Str → Nat × Str
  | [] => (0, [])
  | c :: r =>
    if c.isDigit then
      let (n, rest) := spanDigits r
      (n + 1, rest)
    else (0, c :: r)

/-- Decimal/exponential literal grammar of `strconv.ParseFloat`: an optional
sign, a mantissa with at least one digit and at most one dot, and an optional
exponent part. -/
def decimalFloatSyntax (s : Str) : Bool :=
  let s1 := stripSign s
  let (n1, r1) := spanDigits s1
  let (n2, r2) := match r1 with
    | '.' :: r => spanDigits r
    | _ => (0, r1)
  if n1 + n2 = 0 then false
  else
    match r2 with
    | [] => true
    | e :: r3 =>
      if e = 'e' || e = 'E' then
        let (n4, r4) := spanDigits (stripSign r3)
        decide (0 < n4) && decide (r4 = [])
      else false

/-- The special values accepted by `strconv.ParseFloat` (case-insensitive). -/
def specialFloat (s : Str) : Bool :=
  let t := s.map Char.toLower
  t = strL "inf" || t = strL "+inf" || t = strL "-inf" ||
  t = strL "infinity" || t = strL "+infinity" || t = strL "-infinity" ||
  t = strL "nan"

/-- Whether `strconv.ParseFloat(s, 64)` succeeds, at the level of syntax.
Faithful to the decimal grammar of strconv for the Go version vendored by the
repository (hexadecimal floats and digit underscores of later Go versions are
not modelled, and out-of-range errors are not modelled). -/
def parseFloatOk (s : Str) : Bool :=
  specialFloat s || decimalFloatSyntax s

/-- The errors a reader or writer call can surface.  `strconv.ParseFloat`
failures are `*strconv.NumError` values carrying the function name and the
offending literal; they carry no field position.  Scanner and sink failures
carry the message of the underlying error. -/
inductive GoErr : Type
  /-- ErrFieldCount of numcsv.go:40. -/
  | fieldCount
  /-- ErrTrailingComma of numcsv.go:39 (declared by the source, never returned). -/
  | trailingComma
  /-- Syntax error of strconv.ParseFloat: carries the offending literal only. -/
  | parseFloatSyntax (num : Str)
  /-- An error of the underlying byte stream. -/
  | stream (msg : Str)
  deriving DecidableEq, Repr

/-- A Go `float64`, represented by its source token (see the file comment). -/
abbrev GoFloat := Str

/-- The parse loop of `Reader.Read` (numcsv.go:117-125): parse tokens left to
right, stopping at the first invalid one. -/
def parseRow : List Str → Except GoErr (List GoFloat)
  | [] => .ok []
  | t :: ts =>
    if parseFloatOk t then (parseRow ts).map (fun d => t :: d)
    else .error (.parseFloatSyntax t)

/-- The `numcsv.Reader` (numcsv.go:17-28) together with the state of its
`bufio.Scanner`: `lines` are the lines the scanner will still deliver, and
`scanErr` is what `Scanner.Err` reports once they are exhausted (`none` for a
clean end of stream). -/
structure Reader : Type where
  comma : Str
  headingComma : Str
  comment : Str
  fieldsPerRecord : Int
  noHeading : Bool
  hasEndingComma : Bool
  lines : List Str
  scanErr : Option Str
  lineRead : Bool
  deriving DecidableEq, Repr

/-- `numcsv.NewReader` (numcsv.go:30-36) on a given stream. -/
def newReader (lines : List Str) (scanErr : Option Str) : Reader :=
  { comma := strL ","
    headingComma := []
    comment := []
    fieldsPerRecord := 0
    noHeading := false
    hasEndingComma := false
    lines := lines
    scanErr := scanErr
    lineRead := false }

/-- The heading search loop of `Reader.ReadHeading` (numcsv.go:46-56): scan
until a line that is neither empty nor comment-prefixed; `last` is the current
value of the `line` variable.  Returns the final value of `line`, the
remaining stream, and whether a usable line was found. -/
def scanHeadingLine (comment : Str) (last : Str) : List Str → Str × List Str × Bool
  | [] => (last, [], false)
  | l :: rest =>
    if l = [] then scanHeadingLine comment l rest
    else if comment ≠ [] ∧ comment.isPrefixOf l then scanHeadingLine comment l rest
    else (l, rest, true)

/-- Strip one layer of double quotes, in the order of numcsv.go:78-82
(TrimSuffix, then TrimPrefix). -/
def stripQuotes (s : Str) : Str :=
  trimPfx (strL "\"") (trimSfx (strL "\"") s)

/-- `Reader.ReadHeading` (numcsv.go:44-85).  Returns the Go pair
`(headings, err)` (the source returns nil headings with every error) and the
state after the call.  Note numcsv.go:60-63 computes the effective heading
delimiter into a local that line 64 does not use: the split is on `Comma`. -/
def readHeading (r : Reader) : (List Str × Option GoErr) × Reader :=
  let (line, rest, found) := scanHeadingLine r.comment [] r.lines
  let r1 : Reader := { r with lines := rest }
  -- Scanner.Err is non-nil only when the scan loop stopped at the stream error
  match (if found then none else r.scanErr) with
  | some e => (([], some (.stream e)), r1)
  | none =>
    let _comma := if r.headingComma = [] then r.comma else r.headingComma
    let headings := nonBlank r1.comma line
    if r1.fieldsPerRecord ≠ 0 ∧ (headings.length : Int) ≠ r1.fieldsPerRecord then
      (([], some .fieldCount), r1)
    else
      ((headings.map stripQuotes, none),
        { r1 with fieldsPerRecord := (headings.length : Int), lineRead := true })

/-- `Reader.Read` (numcsv.go:89-127).  Returns the Go pair `(data, err)` —
`(none, none)` is the nil-row/nil-error end-of-stream signal — and the state
after the call. -/
def read (r : Reader) : (Option (List GoFloat) × Option GoErr) × Reader :=
  match r.lines with
  | [] => ((none, r.scanErr.map .stream), r)
  | line :: rest =>
    let r1 : Reader := { r with lines := rest }
    let strs := nonBlank r1.comma line
    let r2 : Reader :=
      if ¬ r1.lineRead then
        { r1 with
          lineRead := true
          fieldsPerRecord :=
            if r1.fieldsPerRecord = 0 then (strs.length : Int) else r1.fieldsPerRecord }
      else r1
    if (strs.length : Int) ≠ r2.fieldsPerRecord then ((none, some .fieldCount), r2)
    else
      match parseRow strs with
      | .error e => ((none, some e), r2)
      | .ok data => ((some data, none), r2)

/-- A `mat64.Dense` as used by the source (an external collaborator): its two
dimensions and its rows.  `NewDense(r, c, nil)` zero-initialises; negative
dimensions, on which mat64 would fail, are clamped by `Int.toNat` (never
reached by the claims). -/
structure Dense : Type where
  rows : Nat
  cols : Nat
  data : List (List GoFloat)
  deriving DecidableEq, Repr

/-- The float64 zero value, in the token representation. -/
def zeroFloat : GoFloat := strL "0"

/-- `mat64.NewDense(r, c, nil)`. -/
def mkDense (r c : Nat) : Dense :=
  { rows := r, cols := c, data := List.replicate r (List.replicate c zeroFloat) }

/-- `Dense.Set(i, j, v)` (out-of-range indices, on which mat64 would fail, are
a no-op; never reached by the claims). -/
def dSet (m : Dense) (i j : Nat) (v : GoFloat) : Dense :=
  match m.data[i]? with
  | some row => { m with data := m.data.set i (row.set j v) }
  | none => m

/-- The inner copy loop of `Reader.ReadAll` (numcsv.go:147-149). -/
def fillRow (m : Dense) (i : Nat) (j : Nat) : List GoFloat → Dense
  | [] => m
  | v :: vs => fillRow (dSet m i j v) i (j + 1) vs

/-- The outer copy loop of `Reader.ReadAll` (numcsv.go:146-150). -/
def fillRows (m : Dense) (i : Nat) : List (List GoFloat) → Dense
  | [] => m
  | rec :: rest => fillRows (fillRow m i 0 rec) (i + 1) rest

/-- Matrix construction of `Reader.ReadAll` (numcsv.go:145-150). -/
def buildDense (alldata : List (List GoFloat)) (fpr : Int) : Dense :=
  fillRows (mkDense alldata.length fpr.toNat) 0 alldata

/-- The accumulation loop of `Reader.ReadAll` (numcsv.go:132-144), with the
fuel argument bounding the number of iterations (each row-yielding `Read`
consumes a line, so `lines.length + 1` fuel is always enough; see
`readAllLoopF_fuel`). -/
def readAllLoopF : Nat → Reader → Except GoErr (List (List GoFloat)) × Reader
  | 0, r => (.ok [], r)
  | fuel + 1, r =>
    match read r with
    | ((_, some e), r1) => (.error e, r1)
    | ((none, none), r1) => (.ok [], r1)
    | ((some d, none), r1) =>
      let (res, r2) := readAllLoopF fuel r1
      (res.map (fun rows => d :: rows), r2)

/-- The accumulation loop of `Reader.ReadAll` with sufficient fuel. -/
def readAllLoop (r : Reader) : Except GoErr (List (List GoFloat)) × Reader :=
  readAllLoopF (r.lines.length + 1) r

/-- `Reader.ReadAll` (numcsv.go:131-152): accumulate rows until the nil/nil
signal, returning `(nil, err)` if any `Read` errs, else the built matrix. -/
def readAll (r : Reader) : (Option Dense × Option GoErr) × Reader :=
  match readAllLoop r with
  | (.error e, r1) => ((none, some e), r1)
  | (.ok alldata, r1) =>
    ((some (buildDense alldata r1.fieldsPerRecord), none), r1)

/-- A `bufio.Writer` over a byte sink.  The sink (an `io.Writer`) is modelled
by a schedule: each underlying `Write` call pops one entry, `true` accepting
the whole chunk and `false` rejecting it with an error; an exhausted schedule
accepts (a healthy sink).  `err` is the sticky error of bufio. -/
structure BufioWriter : Type where
  cap : Nat
  buf : Str
  out : Str
  sched : List Bool
  err : Option GoErr
  deriving DecidableEq, Repr

/-- The error a failing sink reports. -/
def sinkErr : GoErr := .stream (strL "sink failure")

/-- Free space in the buffer (`bufio.Writer.Available`). -/
def bAvail (b : BufioWriter) : Nat := b.cap - b.buf.length

/-- `bufio.Writer.Flush`: deliver the buffer to the sink; on sink failure keep
the buffer and record the sticky error. -/
def bFlush (b : BufioWriter) : BufioWriter :=
  if b.err ≠ none then b
  else if b.buf = [] then b
  else
    match b.sched with
    | [] => { b with out := b.out ++ b.buf, buf := [] }
    | ok :: rest =>
      if ok then { b with out := b.out ++ b.buf, buf := [], sched := rest }
      else { b with sched := rest, err := some sinkErr }

/-- The loop of `bufio.Writer.WriteString`: while the string exceeds the free
space (and no error), fill the buffer and flush; then copy the rest.  Fuel
bounds the iterations; `writeString` supplies enough (see `writeStringF_spec`). -/
def writeStringF : Nat → BufioWriter → Str → BufioWriter
  | 0, b, _ => b
  | fuel + 1, b, s =>
    if s.length > bAvail b ∧ b.err = none then
      let n := bAvail b
      let b1 := bFlush { b with buf := b.buf ++ s.take n }
      writeStringF fuel b1 (s.drop n)
    else
      if b.err ≠ none then b
      else { b with buf := b.buf ++ s }

/-- `bufio.Writer.WriteString` (its error result equals the sticky `err` of
the resulting state, which is what the numcsv writer checks). -/
def writeString (b : BufioWriter) (s : Str) : BufioWriter :=
  writeStringF (s.length + 2) b s

/-- `bufio.Writer.WriteByte`. -/
def writeByte (b : BufioWriter) (c : Char) : BufioWriter :=
  if b.err ≠ none then b
  else
    let b1 := if bAvail b = 0 then bFlush b else b
    if b1.err ≠ none then b1
    else { b1 with buf := b1.buf ++ [c] }

/-- The `numcsv.Writer` (numcsv.go:154-160). -/
structure Writer : Type where
  comma : Str
  useCRLF : Bool
  quoteHeading : Bool
  floatFmt : Char
  w : BufioWriter
  deriving DecidableEq, Repr

/-- `numcsv.NewWriter` (numcsv.go:162-168): comma delimiter, format byte `e`,
and a `bufio.NewWriter` with its default 4096-byte buffer over the sink. -/
def newWriter (sched : List Bool) : Writer :=
  { comma := strL ","
    useCRLF := false
    quoteHeading := false
    floatFmt := 'e'
    w := { cap := 4096, buf := [], out := [], sched := sched, err := none } }

/-- `strconv.FormatFloat(v, fmt, 16, 64)`, modelled as the identity on the
token representation of the value (see the file comment). -/
def formatFloat (_fmt : Char) (v : GoFloat) : Str := v

/-- The line terminator write shared by the writer methods
(numcsv.go:184-189 and 204-209). -/
def writeEol (useCRLF : Bool) (b : BufioWriter) : BufioWriter :=
  if useCRLF then writeString b (strL "\r\n") else writeByte b '\n'

/-- The field loop of `Writer.WriteHeading` (numcsv.go:171-183): a delimiter
before every field but the first, optional quoting, early return on error. -/
def whFields (b : BufioWriter) (comma : Str) (quote : Bool) (first : Bool) :
    List Str → BufioWriter
  | [] => b
  | f :: fs =>
    let b1 := if first then b else writeString b comma
    if b1.err ≠ none then b1
    else
      let f1 := if quote then '"' :: (f ++ ['"']) else f
      let b2 := writeString b1 f1
      if b2.err ≠ none then b2
      else whFields b2 comma quote false fs

/-- `Writer.WriteHeading` (numcsv.go:170-190). -/
def writeHeading (w : Writer) (heading : List Str) : Writer :=
  let b := whFields w.w w.comma w.quoteHeading true heading
  if b.err ≠ none then { w with w := b }
  else { w with w := writeEol w.useCRLF b }

/-- The field loop of `Writer.Write` (numcsv.go:193-203). -/
def wrFields (b : BufioWriter) (comma : Str) (fmt : Char) (first : Bool) :
    List GoFloat → BufioWriter
  | [] => b
  | v :: vs =>
    let b1 := if first then b else writeString b comma
    if b1.err ≠ none then b1
    else
      let b2 := writeString b1 (formatFloat fmt v)
      if b2.err ≠ none then b2
      else wrFields b2 comma fmt false vs

/-- `Writer.Write` (numcsv.go:192-211). -/
def write (w : Writer) (record : List GoFloat) : Writer :=
  let b := wrFields w.w w.comma w.floatFmt true record
  if b.err ≠ none then { w with w := b }
  else { w with w := writeEol w.useCRLF b }

/-- `Dense.RowView(i)` for the writer loop of numcsv.go:219-225. -/
def rowView (m : Dense) (i : Nat) : List GoFloat := m.data.getD i []

/-- The row loop of `Writer.WriteAll` (numcsv.go:219-225), early return on
error. -/
def waRows (w : Writer) (m : Dense) : List Nat → Writer
  | [] => w
  | i :: is =>
    let w1 := write w (rowView m i)
    if w1.w.err ≠ none then w1 else waRows w1 m is

/-- The tail of `Writer.WriteAll` after the heading step (numcsv.go:219-226):
early return on a heading error, else the row loop with early return, else
the final `Flush`. -/
def waFinish (w1 : Writer) (data : Dense) : Writer :=
  if w1.w.err ≠ none then w1
  else
    let w2 := waRows w1 data (List.range data.rows)
    if w2.w.err ≠ none then w2
    else { w2 with w := bFlush w2.w }

/-- `Writer.WriteAll` (numcsv.go:213-227): heading when non-nil, then every
row, then `Flush` — the flush is reached only on the error-free path.  The Go
error result equals the `err` field of the resulting state. -/
def writeAll (w : Writer) (headings : Option (List Str)) (data : Dense) : Writer :=
  waFinish
    (match headings with
     | some hs => writeHeading w hs
     | none => w)
    data

/-- The line terminator the writer configuration produces. -/
def eolStr (useCRLF : Bool) : Str := if useCRLF then strL "\r\n" else ['\n']

/-- The text the heading field loop (numcsv.go:171-183) sends to the buffered
writer: a delimiter before every field but the first, optional quoting. -/
def renderHFields (comma : Str) (quote : Bool) (first : Bool) : List Str → Str
  | [] => []
  | f :: fs =>
    (if first then [] else comma) ++ (if quote then '"' :: (f ++ ['"']) else f) ++
      renderHFields comma quote false fs

/-- The text `Writer.WriteHeading` sends to the buffered writer. -/
def renderHeading (w : Writer) (hs : List Str) : Str :=
  renderHFields w.comma w.quoteHeading true hs ++ eolStr w.useCRLF

/-- The text the record field loop (numcsv.go:193-203) sends to the buffered
writer. -/
def renderRFields (comma : Str) (fmt : Char) (first : Bool) : List GoFloat → Str
  | [] => []
  | v :: vs =>
    (if first then [] else comma) ++ formatFloat fmt v ++ renderRFields comma fmt false vs

/-- The text `Writer.Write` sends to the buffered writer for one record. -/
def renderRecord (w : Writer) (rec : List GoFloat) : Str :=
  renderRFields w.comma w.floatFmt true rec ++ eolStr w.useCRLF

/-- The text the `WriteAll` row loop sends to the buffered writer. -/
def renderRows (w : Writer) (m : Dense) (is : List Nat) : Str :=
  (is.map (fun i => renderRecord w (rowView m i))).flatten

/-- The full text `WriteAll` sends to the buffered writer: the heading when
non-nil, then every row in order. -/
def renderAll (w : Writer) (hs : Option (List Str)) (m : Dense) : Str :=
  (match hs with
   | some h => renderHeading w h
   | none => []) ++ renderRows w m (List.range m.rows)

/-- The state invariant of the modelled `bufio.Writer`: positive capacity, the
buffer within capacity, and a sticky error only with an undelivered buffer. -/
def bwInv (b : BufioWriter) : Prop :=
  0 < b.cap ∧ b.buf.length ≤ b.cap ∧ (b.err ≠ none → b.buf ≠ [])

/-- Postcondition of sending `s` through the buffered writer: the invariant is
kept, the capacity is unchanged, on a clean result the delivered plus buffered
bytes are exactly the old ones followed by `s`, and a pre-existing sticky
error makes the call a no-op. -/
def wPost (b b1 : BufioWriter) (s : Str) : Prop :=
  bwInv b1 ∧ b1.cap = b.cap ∧
  (b1.err = none → b.err = none ∧ b1.out ++ b1.buf = b.out ++ b.buf ++ s) ∧
  (b.err ≠ none → b1 = b)

/-- A fresh reader over the two-line stream 1,2 / 3,4 (a concrete example). -/
def exReader12 : Reader := newReader [strL "1,2", strL "3,4"] none

/-- The table that stream parses to. -/
def exDense12 : Dense :=
  { rows := 2, cols := 2, data := [[strL "1", strL "2"], [strL "3", strL "4"]] }

/-- The reader state after `ReadAll` exhausts that stream. -/
def exReader12After : Reader :=
  { exReader12 with lines := [], fieldsPerRecord := 2, lineRead := true }

/-- Equality of the writer configuration (everything except the buffered
writer state), preserved by every writer method. -/
def configEq (w1 w : Writer) : Prop :=
  w1.comma = w.comma ∧ w1.useCRLF = w.useCRLF ∧ w1.quoteHeading = w.quoteHeading ∧
  w1.floatFmt = w.floatFmt

/-- Join pieces with a separator (the inverse of a faithful split, used to
state delimiter-insertion properties). -/
def joinSep (sep : Str) : List Str → Str
  | [] => []
  | [m] => m
  | m :: ms => m ++ sep ++ joinSep sep ms

/-- A line the heading search of `ReadHeading` skips: empty, or
comment-prefixed under a non-empty comment prefix. -/
def skippable (comment l : Str) : Prop :=
  l = [] ∨ (comment ≠ [] ∧ comment.isPrefixOf l)

instance (comment l : Str) : Decidable (skippable comment l) := by
  unfold skippable
  infer_instance

/-- Repeated `Read`: `iterRead (n+1)` returns what the `n+1`-st call returns. -/
def iterRead : Nat → Reader → (Option (List GoFloat) × Option GoErr) × Reader
  | 0, r => ((none, none), r)
  | n + 1, r =>
    match n with
    | 0 => read r
    | _ => iterRead n (read r).2

/-- The field count in force after a `Read` call that consumed `line`
(numcsv.go:106-111): unchanged once a line was read or when preset, otherwise
established from the non-blank token count of `line`. -/
def fprAfter (r : Reader) (line : Str) : Int :=
  if r.lineRead then r.fieldsPerRecord
  else if r.fieldsPerRecord = 0 then ((nonBlank r.comma line).length : Int)
  else r.fieldsPerRecord

/-- The reader state after a `Read` call that consumed `line`. -/
def stateAfter (r : Reader) (line : Str) (rest : List Str) : Reader :=
  { r with lines := rest, lineRead := true, fieldsPerRecord := fprAfter r line }

/-! ### Lemmas on splitting and trimming -/

theorem splitAuxF_fuel (sep : Str) (f1 : Nat) :
    ∀ (f2 : Nat) (acc s : Str), s.length < f1 → s.length < f2 →
      splitAuxF sep f1 acc s = splitAuxF sep f2 acc s := by
  induction f1 with
  | zero => intro f2 acc s h1; omega
  | succ a ih =>
    intro f2 acc s h1 h2
    match f2, h2 with
    | b + 1, h2 =>
      match s with
      | [] => rfl
      | x :: xs =>
        simp only [splitAuxF]
        split
        · rw [ih b [] (xs.drop (sep.length - 1))
            (by simp only [List.length_drop]; simp at h1; omega)
            (by simp only [List.length_drop]; simp at h2; omega)]
        · rw [ih b (x :: acc) xs (by simp at h1; omega) (by simp at h2; omega)]

theorem splitAux_nil (sep acc : Str) : splitAux sep acc [] = [acc.reverse] := rfl

theorem splitAuxF_succ_cons (sep : Str) (fuel : Nat) (acc : Str) (x : Char) (xs : Str) :
    splitAuxF sep (fuel + 1) acc (x :: xs) =
      if sep.isPrefixOf (x :: xs) then
        acc.reverse :: splitAuxF sep fuel [] (xs.drop (sep.length - 1))
      else splitAuxF sep fuel (x :: acc) xs := rfl

theorem splitAux_cons (sep acc : Str) (x : Char) (xs : Str) :
    splitAux sep acc (x :: xs) =
      if sep.isPrefixOf (x :: xs) then
        acc.reverse :: splitAux sep [] (xs.drop (sep.length - 1))
      else splitAux sep (x :: acc) xs := by
  show splitAuxF sep (xs.length + 1 + 1) acc (x :: xs) = _
  rw [splitAuxF_succ_cons]
  split
  · rw [splitAuxF_fuel sep (xs.length + 1) (List.length (xs.drop (sep.length - 1)) + 1)
      [] (xs.drop (sep.length - 1)) (by simp only [List.length_drop]; omega)
      (by omega)]
    rfl
  · rfl

theorem splitAux_singleton_cons (c : Char) (acc : Str) (x : Char) (xs : Str) :
    splitAux [c] acc (x :: xs) =
      if c = x then acc.reverse :: splitAux [c] [] xs
      else splitAux [c] (x :: acc) xs := by
  rw [splitAux_cons]
  by_cases h : c = x
  · subst h
    simp [List.isPrefixOf]
  · simp [List.isPrefixOf, h]

theorem splitAux_no_sep (c : Char) (p : Str) (hp : c ∉ p) (acc : Str) :
    splitAux [c] acc p = [acc.reverse ++ p] := by
  induction p generalizing acc with
  | nil => simp [splitAux_nil]
  | cons x xs ih =>
    have hx : c ≠ x := fun h => hp (h ▸ List.mem_cons_self x xs)
    rw [splitAux_singleton_cons, if_neg hx, ih (fun h => hp (List.mem_cons_of_mem x h))]
    simp

theorem splitAux_sep_cons (c : Char) (p : Str) (hp : c ∉ p) (acc s : Str) :
    splitAux [c] acc (p ++ c :: s) = (acc.reverse ++ p) :: splitAux [c] [] s := by
  induction p generalizing acc with
  | nil => simp [splitAux_singleton_cons]
  | cons x xs ih =>
    have hx : c ≠ x := fun h => hp (h ▸ List.mem_cons_self x xs)
    rw [List.cons_append, splitAux_singleton_cons, if_neg hx,
      ih (fun h => hp (List.mem_cons_of_mem x h))]
    simp

theorem splitAux_joinSep (c : Char) (ms : List Str) (hms : ms ≠ [])
    (hfree : ∀ p ∈ ms, c ∉ p) :
    splitAux [c] [] (joinSep [c] ms) = ms := by
  induction ms with
  | nil => exact absurd rfl hms
  | cons m ms ih =>
    match ms with
    | [] =>
      simp only [joinSep]
      rw [splitAux_no_sep c m (hfree m (List.mem_cons_self m [])) []]
      simp
    | m2 :: ms2 =>
      have hj : joinSep [c] (m :: m2 :: ms2) = m ++ c :: joinSep [c] (m2 :: ms2) := by
        simp [joinSep]
      rw [hj, splitAux_sep_cons c m (hfree m (List.mem_cons_self m _)) []]
      rw [ih (by simp) (fun p hp => hfree p (List.mem_cons_of_mem m hp))]
      simp

theorem mem_splitAux (c : Char) :
    ∀ (s acc : Str), (∀ a ∈ acc, a ≠ c) →
      ∀ p ∈ splitAux [c] acc s, ∀ ch ∈ p, (ch ∈ acc ∨ ch ∈ s) ∧ ch ≠ c := by
  intro s
  induction s with
  | nil =>
    intro acc hacc p hp ch hch
    rw [splitAux_nil] at hp
    simp only [List.mem_singleton] at hp
    subst hp
    rw [List.mem_reverse] at hch
    exact ⟨Or.inl hch, hacc ch hch⟩
  | cons x xs ih =>
    intro acc hacc p hp ch hch
    rw [splitAux_singleton_cons] at hp
    by_cases hc : c = x
    · rw [if_pos hc] at hp
      rcases List.mem_cons.mp hp with h | h
      · subst h
        rw [List.mem_reverse] at hch
        exact ⟨Or.inl hch, hacc ch hch⟩
      · have := ih [] (by simp) p h ch hch
        rcases this with ⟨h1 | h1, h2⟩
        · exact absurd h1 (List.not_mem_nil ch)
        · exact ⟨Or.inr (List.mem_cons_of_mem x h1), h2⟩
    · rw [if_neg hc] at hp
      have haccx : ∀ a ∈ x :: acc, a ≠ c := by
        intro a ha
        rcases List.mem_cons.mp ha with h | h
        · subst h; exact fun h => hc h.symm
        · exact hacc a h
      have := ih (x :: acc) haccx p hp ch hch
      rcases this with ⟨h1 | h1, h2⟩
      · rcases List.mem_cons.mp h1 with h | h
        · subst h; exact ⟨Or.inr (List.mem_cons_self ch xs), h2⟩
        · exact ⟨Or.inl h, h2⟩
      · exact ⟨Or.inr (List.mem_cons_of_mem x h1), h2⟩

theorem trimSpace_eq_nil (s : Str) (h : ∀ ch ∈ s, isGoSpace ch) :
    trimSpace s = [] := by
  unfold trimSpace
  have h1 : s.dropWhile isGoSpace = [] := List.dropWhile_eq_nil_iff.mpr h
  rw [h1]
  simp

/-- The non-blank token computation depends on a line built from pieces only
through the trimmed non-blank pieces. -/
theorem nonBlank_joinSep (c : Char) (ms : List Str) (hfree : ∀ p ∈ ms, c ∉ p) :
    nonBlank [c] (joinSep [c] ms) =
      (ms.map trimSpace).filter (fun t => t ≠ []) := by
  match ms with
  | [] =>
    simp [nonBlank, joinSep, splitGo, splitAux_nil, trimSpace]
  | m :: ms2 =>
    unfold nonBlank splitGo
    rw [if_neg (by simp)]
    rw [splitAux_joinSep c (m :: ms2) (by simp) hfree]

/-- A line whose characters are all white space or the (single-character)
delimiter has no non-blank tokens. -/
theorem nonBlank_eq_nil_of_ws (c : Char) (line : Str)
    (h : ∀ ch ∈ line, isGoSpace ch ∨ ch = c) :
    nonBlank [c] line = [] := by
  unfold nonBlank splitGo
  rw [if_neg (by simp)]
  rw [List.filter_eq_nil_iff]
  intro t ht
  rw [List.mem_map] at ht
  obtain ⟨p, hp, rfl⟩ := ht
  have htp : trimSpace p = [] := by
    apply trimSpace_eq_nil
    intro ch hch
    have := mem_splitAux c line [] (by simp) p hp ch hch
    rcases this with ⟨h1 | h1, h2⟩
    · exact absurd h1 (List.not_mem_nil ch)
    · rcases h ch h1 with hs | hc
      · exact hs
      · exact absurd hc h2
  simp [htp]

/-! ### Lemmas on row parsing -/

theorem parseRow_ok_eq (ts : List Str) (d : List GoFloat)
    (h : parseRow ts = .ok d) : d = ts := by
  induction ts generalizing d with
  | nil =>
    simp only [parseRow] at h
    cases h
    rfl
  | cons t ts ih =>
    simp only [parseRow] at h
    by_cases hok : parseFloatOk t
    · rw [if_pos hok] at h
      cases hrec : parseRow ts with
      | error e => rw [hrec] at h; simp [Except.map] at h
      | ok d2 =>
        rw [hrec] at h
        simp only [Except.map] at h
        cases h
        rw [ih d2 hrec]
    · rw [if_neg hok] at h
      simp at h

theorem parseRow_all_ok (ts : List Str) (h : ∀ t ∈ ts, parseFloatOk t) :
    parseRow ts = .ok ts := by
  induction ts with
  | nil => rfl
  | cons t ts ih =>
    simp only [parseRow]
    rw [if_pos (h t (List.mem_cons_self t ts)),
      ih (fun t ht => h t (List.mem_cons_of_mem _ ht))]
    rfl

theorem parseRow_first_bad (ts : List Str) (bad : Str)
    (h : ts.find? (fun t => ¬ parseFloatOk t) = some bad) :
    parseRow ts = .error (.parseFloatSyntax bad) := by
  induction ts with
  | nil => simp at h
  | cons t ts ih =>
    by_cases hok : parseFloatOk t
    · rw [List.find?_cons_of_neg _ (by simp [hok])] at h
      simp only [parseRow, if_pos hok, ih h]
      rfl
    · rw [List.find?_cons_of_pos _ (by simp [hok])] at h
      cases h
      simp [parseRow, hok]

/-! ### Lemmas on `read` -/

theorem read_nil (r : Reader) (h : r.lines = []) :
    read r = ((none, r.scanErr.map .stream), r) := by
  simp only [read, h]

theorem read_preserves (r : Reader) :
    (read r).2.comma = r.comma ∧ (read r).2.headingComma = r.headingComma ∧
    (read r).2.comment = r.comment ∧ (read r).2.scanErr = r.scanErr ∧
    (read r).2.noHeading = r.noHeading ∧ (read r).2.lines = r.lines.tail := by
  rcases hl : r.lines with _ | ⟨line, rest⟩
  · simp [read, hl]
  · simp only [read, hl]
    repeat' split
    all_goals simp

theorem read_lineRead (r : Reader) (h : r.lineRead = true) :
    (read r).2.lineRead = true ∧ (read r).2.fieldsPerRecord = r.fieldsPerRecord := by
  rcases hl : r.lines with _ | ⟨line, rest⟩
  · simp [read, hl, h]
  · simp only [read, hl, h]
    repeat' split
    all_goals simp_all

theorem read_fpr_of_ne_zero (r : Reader) (h : r.fieldsPerRecord ≠ 0) :
    (read r).2.fieldsPerRecord = r.fieldsPerRecord := by
  rcases hl : r.lines with _ | ⟨line, rest⟩
  · simp [read, hl]
  · simp only [read, hl]
    by_cases hlr : r.lineRead <;> simp only [hlr] <;> [skip; simp only [h]] <;>
      (repeat' split) <;> simp_all

theorem read_cons_eq (r : Reader) (line : Str) (rest : List Str)
    (hl : r.lines = line :: rest) :
    read r =
      (if ((nonBlank r.comma line).length : Int) ≠ fprAfter r line then
        ((none, some .fieldCount), stateAfter r line rest)
      else
        match parseRow (nonBlank r.comma line) with
        | .error e => ((none, some e), stateAfter r line rest)
        | .ok data => ((some data, none), stateAfter r line rest)) := by
  by_cases hlr : r.lineRead <;>
    simp only [read, hl, fprAfter, stateAfter, hlr] <;> simp

theorem read_establish (r : Reader) (hlr : r.lineRead = false)
    (hf : r.fieldsPerRecord = 0) (line : Str) (rest : List Str)
    (h : r.lines = line :: rest) :
    (read r).2.fieldsPerRecord = ((nonBlank r.comma line).length : Int) ∧
    (read r).2.lineRead = true := by
  rw [read_cons_eq r line rest h]
  repeat' split
  all_goals simp [stateAfter, fprAfter, hlr, hf]

theorem read_some (r : Reader) (d : List GoFloat) (e2 : Option GoErr) (r1 : Reader)
    (h : read r = ((some d, e2), r1)) :
    e2 = none ∧ r.lines ≠ [] ∧ (d.length : Int) = r1.fieldsPerRecord ∧
    r1.lineRead = true := by
  rcases hl : r.lines with _ | ⟨line, rest⟩
  · rw [read_nil r hl] at h
    cases h
  · rw [read_cons_eq r line rest hl] at h
    revert h
    split
    · intro h; cases h
    · rename_i hcount
      split
      · intro h; cases h
      · rename_i data hdata
        intro h
        cases h
        refine ⟨rfl, by simp [hl], ?_, rfl⟩
        rw [parseRow_ok_eq _ _ hdata]
        simpa [stateAfter] using not_ne_iff.mp hcount

theorem read_none_none (r : Reader) (r1 : Reader)
    (h : read r = ((none, none), r1)) :
    r1 = r ∧ r.lines = [] ∧ r.scanErr = none := by
  rcases hl : r.lines with _ | ⟨line, rest⟩
  · rw [read_nil r hl] at h
    rcases hs : r.scanErr with _ | e
    · rw [hs] at h
      cases h
      exact ⟨rfl, rfl, rfl⟩
    · rw [hs] at h
      cases h
  · rw [read_cons_eq r line rest hl] at h
    split at h
    · cases h
    · split at h <;> cases h

/-! ### Lemmas on the `ReadAll` loop -/

theorem read_some_lines (r : Reader) (d : List GoFloat) (r1 : Reader)
    (h : read r = ((some d, none), r1)) :
    r1.lines.length + 1 = r.lines.length := by
  have hne := (read_some r d none r1 h).2.1
  have htail := (read_preserves r).2.2.2.2.2
  rw [h] at htail
  rcases hl : r.lines with _ | ⟨line, rest⟩
  · exact absurd hl hne
  · rw [hl] at htail
    simp only [List.tail_cons] at htail
    rw [htail]
    simp

theorem readAllLoopF_fuel (f1 : Nat) :
    ∀ (f2 : Nat) (r : Reader), r.lines.length < f1 → r.lines.length < f2 →
      readAllLoopF f1 r = readAllLoopF f2 r := by
  induction f1 with
  | zero => intro f2 r h1; omega
  | succ a ih =>
    intro f2 r h1 h2
    match f2, h2 with
    | b + 1, h2 =>
      rcases hr : read r with ⟨⟨d, e⟩, r1⟩
      rcases e with _ | e
      · rcases d with _ | d
        · simp only [readAllLoopF, hr]
        · have hlen := read_some_lines r d r1 hr
          have hih := ih b r1 (by omega) (by omega)
          simp only [readAllLoopF, hr, hih]
      · rcases d with _ | d <;> simp only [readAllLoopF, hr]

theorem readAllLoopF_ok_inv (f : Nat) :
    ∀ (r : Reader) (rows : List (List GoFloat)) (r1 : Reader),
      r.lineRead = true → readAllLoopF f r = (.ok rows, r1) →
      r1.fieldsPerRecord = r.fieldsPerRecord ∧ r1.lineRead = true ∧
      ∀ row ∈ rows, (row.length : Int) = r.fieldsPerRecord := by
  induction f with
  | zero =>
    intro r rows r1 hlr h
    simp only [readAllLoopF] at h
    cases h
    exact ⟨rfl, hlr, by simp⟩
  | succ a ih =>
    intro r rows r1 hlr h
    rcases hr : read r with ⟨⟨d, e⟩, r2⟩
    rcases e with _ | e
    · rcases d with _ | d
      · simp only [readAllLoopF, hr] at h
        cases h
        obtain ⟨rfl, -, -⟩ := read_none_none r _ hr
        exact ⟨rfl, hlr, by simp⟩
      · simp only [readAllLoopF, hr] at h
        rcases hrec : readAllLoopF a r2 with ⟨res, r3⟩
        rw [hrec] at h
        rcases res with e3 | rows2
        · simp [Except.map] at h
        · simp only [Except.map] at h
          cases h
          have hpost := read_lineRead r hlr
          rw [hr] at hpost
          obtain ⟨hlr2, hfpr2⟩ := hpost
          obtain ⟨h1, h2, h3⟩ := ih r2 rows2 r1 hlr2 hrec
          refine ⟨by rw [h1, hfpr2], h2, ?_⟩
          intro row hrow
          rcases List.mem_cons.mp hrow with hq | hq
          · subst hq
            have := (read_some r row none r2 hr).2.2.1
            rw [this, hfpr2]
          · rw [h3 row hq, hfpr2]
    · rcases d with _ | d <;> simp [readAllLoopF, hr] at h

theorem readAllLoopF_rect (f : Nat) (r : Reader) (rows : List (List GoFloat))
    (r1 : Reader) (h : readAllLoopF f r = (.ok rows, r1)) :
    ∀ row ∈ rows, (row.length : Int) = r1.fieldsPerRecord := by
  match f with
  | 0 =>
    simp only [readAllLoopF] at h
    cases h
    simp
  | a + 1 =>
    rcases hr : read r with ⟨⟨d, e⟩, r2⟩
    rcases e with _ | e
    · rcases d with _ | d
      · simp only [readAllLoopF, hr] at h
        cases h
        simp
      · simp only [readAllLoopF, hr] at h
        rcases hrec : readAllLoopF a r2 with ⟨res, r3⟩
        rw [hrec] at h
        rcases res with e3 | rows2
        · simp [Except.map] at h
        · simp only [Except.map] at h
          cases h
          have hlr2 := ((read_some r d none r2 hr).2.2.2)
          obtain ⟨h1, -, h3⟩ := readAllLoopF_ok_inv a r2 rows2 r1 hlr2 hrec
          intro row hrow
          rcases List.mem_cons.mp hrow with hq | hq
          · subst hq
            have := (read_some r row none r2 hr).2.2.1
            rw [this, ← h1]
          · rw [h3 row hq, ← h1]
    · rcases d with _ | d <;> simp [readAllLoopF, hr] at h

theorem readAllLoopF_establish (f : Nat) (r : Reader) (rows : List (List GoFloat))
    (r1 : Reader) (hf : 0 < f) (hlr : r.lineRead = false)
    (hz : r.fieldsPerRecord = 0) (h : readAllLoopF f r = (.ok rows, r1)) :
    r1.fieldsPerRecord =
      (match r.lines with
       | [] => (0 : Int)
       | l :: _ => ((nonBlank r.comma l).length : Int)) := by
  match f, hf with
  | a + 1, _ =>
    rcases hl : r.lines with _ | ⟨line, rest⟩
    · rcases hs : r.scanErr with _ | e
      · have hrd : read r = ((none, none), r) := by rw [read_nil r hl, hs]; rfl
        simp only [readAllLoopF, hrd] at h
        cases h
        exact hz
      · have hrd : read r = ((none, some (.stream e)), r) := by
          rw [read_nil r hl, hs]; rfl
        simp only [readAllLoopF, hrd] at h
        cases h
    · rcases hr : read r with ⟨⟨d, e⟩, r2⟩
      have hest := read_establish r hlr hz line rest hl
      rw [hr] at hest
      rcases e with _ | e
      · rcases d with _ | d
        · exact absurd hr (by
            intro hcon
            have := (read_none_none r r2 hcon).2.1
            rw [hl] at this
            cases this)
        · simp only [readAllLoopF, hr] at h
          rcases hrec : readAllLoopF a r2 with ⟨res, r3⟩
          rw [hrec] at h
          rcases res with e3 | rows2
          · simp [Except.map] at h
          · simp only [Except.map] at h
            cases h
            obtain ⟨h1, -, -⟩ := readAllLoopF_ok_inv a r2 rows2 r1 hest.2 hrec
            rw [h1, hest.1]
      · rcases d with _ | d <;> simp [readAllLoopF, hr] at h

/-! ### Lemmas on the buffered writer -/

theorem bFlush_stick (b : BufioWriter) (h : b.err ≠ none) : bFlush b = b := by
  unfold bFlush
  rw [if_pos h]

theorem bFlush_cap (b : BufioWriter) : (bFlush b).cap = b.cap := by
  unfold bFlush
  repeat' split
  all_goals rfl

theorem bFlush_inv (b : BufioWriter) (h : bwInv b) : bwInv (bFlush b) := by
  obtain ⟨h1, h2, h3⟩ := h
  unfold bFlush bwInv
  repeat' split
  all_goals simp_all

theorem bFlush_ok (b : BufioWriter) (h : (bFlush b).err = none) :
    b.err = none ∧ (bFlush b).out = b.out ++ b.buf ∧ (bFlush b).buf = [] := by
  revert h
  unfold bFlush
  repeat' split
  all_goals intro h
  all_goals simp_all

theorem bFlush_fail (b : BufioWriter) (h0 : b.err = none)
    (h : (bFlush b).err ≠ none) :
    (bFlush b).buf = b.buf ∧ b.buf ≠ [] ∧ (bFlush b).out = b.out := by
  revert h
  unfold bFlush
  repeat' split
  all_goals intro h
  all_goals simp_all

theorem wsF_succ (fuel : Nat) (b : BufioWriter) (s : Str) :
    writeStringF (fuel + 1) b s =
      if s.length > bAvail b ∧ b.err = none then
        writeStringF fuel (bFlush { b with buf := b.buf ++ s.take (bAvail b) })
          (s.drop (bAvail b))
      else if b.err ≠ none then b
      else { b with buf := b.buf ++ s } := rfl

theorem wsF_stick (fuel : Nat) (b : BufioWriter) (s : Str) (h : b.err ≠ none) :
    writeStringF fuel b s = b := by
  cases fuel with
  | zero => rfl
  | succ fuel =>
    rw [wsF_succ]
    rw [if_neg (fun hc => h hc.2), if_pos h]

theorem wsF_empty (fuel : Nat) :
    ∀ (b : BufioWriter) (s : Str), b.buf = [] → b.err = none → 0 < b.cap →
      s.length < fuel →
      (writeStringF fuel b s).cap = b.cap ∧
      (writeStringF fuel b s).buf.length ≤ b.cap ∧
      ((writeStringF fuel b s).err = none →
        (writeStringF fuel b s).out ++ (writeStringF fuel b s).buf = b.out ++ s) ∧
      ((writeStringF fuel b s).err ≠ none → (writeStringF fuel b s).buf ≠ []) := by
  induction fuel with
  | zero => intro b s hbuf herr hcap hlen; omega
  | succ fuel ih =>
    intro b s hbuf herr hcap hlen
    rw [wsF_succ]
    by_cases hcond : s.length > bAvail b ∧ b.err = none
    · rw [if_pos hcond]
      have havail : bAvail b = b.cap := by simp [bAvail, hbuf]
      have hgt : b.cap < s.length := by
        have := hcond.1
        rwa [havail] at this
      set inner : BufioWriter := { b with buf := b.buf ++ s.take (bAvail b) } with hinner
      have hibuf : inner.buf = s.take b.cap := by simp [hinner, hbuf, havail]
      have hibuflen : inner.buf.length = b.cap := by
        rw [hibuf, List.length_take]
        omega
      have hierr : inner.err = none := herr
      rcases hres : (bFlush inner).err with _ | e
      · obtain ⟨-, hout, hbuf2⟩ := bFlush_ok inner hres
        have hcap2 : (bFlush inner).cap = b.cap := by rw [bFlush_cap]
        have hlen2 : (s.drop (bAvail b)).length < fuel := by
          rw [List.length_drop, havail]
          omega
        obtain ⟨c1, c2, c3, c4⟩ := ih (bFlush inner) (s.drop (bAvail b)) hbuf2 hres
          (by omega) hlen2
        refine ⟨by rw [c1, hcap2], by rw [← hcap2]; exact c2, ?_, c4⟩
        intro hok
        rw [c3 hok, hout]
        simp only [hinner, hbuf]
        simp [havail]
      · have hfl := bFlush_fail inner hierr (by rw [hres]; simp)
        have hrest : writeStringF fuel (bFlush inner) (s.drop (bAvail b)) = bFlush inner :=
          wsF_stick fuel _ _ (by rw [hres]; simp)
        rw [hrest]
        refine ⟨by rw [bFlush_cap], ?_, ?_, ?_⟩
        · rw [hfl.1, hibuflen]
        · intro hok
          rw [hres] at hok
          cases hok
        · intro _
          rw [hfl.1, hibuf]
          intro hnil
          have hlen0 := congrArg List.length hnil
          rw [List.length_take] at hlen0
          simp only [List.length_nil] at hlen0
          omega
    · rw [if_neg hcond]
      rw [if_neg (by simp [herr])]
      have hle : s.length ≤ bAvail b := by
        rcases Nat.lt_or_ge (bAvail b) s.length with h | h
        · exact absurd ⟨h, herr⟩ hcond
        · exact h
      simp only [bAvail, hbuf, List.length_nil, Nat.sub_zero] at hle
      refine ⟨rfl, ?_, ?_, ?_⟩
      · rw [hbuf]
        simpa using hle
      · intro _
        simp [hbuf]
      · intro hne
        exact absurd herr (by simpa using hne)

theorem writeString_wPost (b : BufioWriter) (s : Str) (h : bwInv b) :
    wPost b (writeString b s) s := by
  obtain ⟨hcap, hbuflen, hervbuf⟩ := h
  rcases herr : b.err with _ | e0
  case some =>
    have hs := wsF_stick (s.length + 2) b s (by rw [herr]; simp)
    unfold writeString
    rw [hs]
    exact ⟨⟨hcap, hbuflen, hervbuf⟩, rfl, fun hok => absurd herr (by rw [hok]; simp), fun _ => rfl⟩
  case none =>
    unfold writeString
    have hsplit : s.length + 2 = (s.length + 1) + 1 := rfl
    rw [hsplit]
    rw [wsF_succ]
    by_cases hcond : s.length > bAvail b ∧ b.err = none
    · rw [if_pos hcond]
      have hgt : bAvail b < s.length := hcond.1
      have hav : bAvail b = b.cap - b.buf.length := rfl
      have hibuflen : (b.buf ++ s.take (bAvail b)).length = b.cap := by
        rw [List.length_append, List.length_take]
        omega
      have hierr : ({ b with buf := b.buf ++ s.take (bAvail b) } : BufioWriter).err = none :=
        herr
      rcases hres : (bFlush { b with buf := b.buf ++ s.take (bAvail b) }).err with _ | e
      · obtain ⟨-, hout, hbuf2⟩ := bFlush_ok _ hres
        have hcap2 : (bFlush { b with buf := b.buf ++ s.take (bAvail b) }).cap = b.cap :=
          bFlush_cap _
        have hlen2 : (s.drop (bAvail b)).length < s.length + 1 := by
          rw [List.length_drop]
          omega
        obtain ⟨c1, c2, c3, c4⟩ := wsF_empty (s.length + 1) _
          (s.drop (bAvail b)) hbuf2 hres (by rw [bFlush_cap]; exact hcap) hlen2
        refine ⟨⟨by omega, by rw [c1]; omega, c4⟩, by omega, ?_, ?_⟩
        · intro hok
          refine ⟨herr, ?_⟩
          rw [c3 hok, hout]
          simp [List.append_assoc]
        · intro hcon
          rw [herr] at hcon
          simp at hcon
      · have hfl := bFlush_fail _ hierr (by rw [hres]; simp)
        have hrest := wsF_stick (s.length + 1)
          (bFlush { b with buf := b.buf ++ s.take (bAvail b) }) (s.drop (bAvail b))
          (by rw [hres]; simp)
        rw [hrest]
        refine ⟨⟨by rw [bFlush_cap]; exact hcap, ?_, ?_⟩, bFlush_cap _, ?_, ?_⟩
        · rw [bFlush_cap, hfl.1]
          exact le_of_eq hibuflen
        · intro _
          rw [hfl.1]
          exact hfl.2.1
        · intro hok
          rw [hres] at hok
          cases hok
        · intro hcon
          rw [herr] at hcon
          simp at hcon
    · rw [if_neg hcond]
      rw [if_neg (by simp [herr])]
      have hle : s.length ≤ bAvail b := by
        rcases Nat.lt_or_ge (bAvail b) s.length with hx | hx
        · exact absurd ⟨hx, herr⟩ hcond
        · exact hx
      refine ⟨⟨hcap, ?_, ?_⟩, rfl, ?_, ?_⟩
      · simp only [List.length_append]
        simp only [bAvail] at hle
        omega
      · intro hne
        exact absurd herr (by simpa using hne)
      · intro _
        exact ⟨herr, by simp⟩
      · intro hcon
        rw [herr] at hcon
        simp at hcon

theorem writeString_overflow_sinkfail (b : BufioWriter) (s : Str) (rest : List Bool)
    (herr : b.err = none) (hbuf : b.buf = []) (hcap : 0 < b.cap)
    (hlen : b.cap < s.length) (hsched : b.sched = false :: rest) :
    writeString b s =
      { b with buf := s.take b.cap, sched := rest, err := some sinkErr } := by
  unfold writeString
  have hsplit : s.length + 2 = (s.length + 1) + 1 := rfl
  rw [hsplit]
  rw [wsF_succ]
  have havail : bAvail b = b.cap := by simp [bAvail, hbuf]
  rw [if_pos (by rw [havail]; exact ⟨hlen, herr⟩)]
  have hinner : { b with buf := b.buf ++ s.take (bAvail b) } =
      { b with buf := s.take b.cap } := by
    simp [hbuf, havail]
  rw [hinner]
  have htake_ne : s.take b.cap ≠ [] := by
    intro hnil
    have hlen0 := congrArg List.length hnil
    rw [List.length_take] at hlen0
    simp only [List.length_nil] at hlen0
    omega
  have hflush : bFlush { b with buf := s.take b.cap } =
      { b with buf := s.take b.cap, sched := rest, err := some sinkErr } := by
    unfold bFlush
    rw [if_neg (by simp [herr]), if_neg (by simpa using htake_ne)]
    simp only [hsched]
    rfl
  rw [hflush]
  exact wsF_stick _ _ _ (by simp)

theorem writeByte_wPost (b : BufioWriter) (c : Char) (h : bwInv b) :
    wPost b (writeByte b c) [c] := by
  obtain ⟨hcap, hbuflen, hervbuf⟩ := h
  rcases herr : b.err with _ | e0
  case some =>
    have hb : writeByte b c = b := by
      unfold writeByte
      rw [if_pos (by rw [herr]; simp)]
    rw [hb]
    exact ⟨⟨hcap, hbuflen, hervbuf⟩, rfl, fun hok => absurd herr (by rw [hok]; simp),
      fun _ => rfl⟩
  case none =>
    unfold writeByte
    rw [if_neg (by simp [herr])]
    by_cases hav : bAvail b = 0
    · rw [if_pos hav]
      rcases hres : (bFlush b).err with _ | e
      · obtain ⟨-, hout, hbuf2⟩ := bFlush_ok b hres
        rw [if_neg (by rw [hres]; simp)]
        refine ⟨⟨by rw [bFlush_cap]; omega, ?_, ?_⟩, by rw [bFlush_cap], ?_, ?_⟩
        · rw [hbuf2, bFlush_cap]
          exact hcap
        · simp
        · intro _
          refine ⟨herr, ?_⟩
          rw [hout, hbuf2]
          simp
        · intro hcon
          rw [herr] at hcon
          simp at hcon
      · have hfl := bFlush_fail b herr (by rw [hres]; simp)
        rw [if_pos (by rw [hres]; simp)]
        refine ⟨⟨by rw [bFlush_cap]; omega, ?_, ?_⟩, by rw [bFlush_cap], ?_, ?_⟩
        · rw [hfl.1, bFlush_cap]
          exact hbuflen
        · intro _
          rw [hfl.1]
          exact hfl.2.1
        · intro hok
          rw [hres] at hok
          cases hok
        · intro hcon
          rw [herr] at hcon
          simp at hcon
    · rw [if_neg hav]
      rw [if_neg (by simp [herr])]
      refine ⟨⟨hcap, ?_, ?_⟩, rfl, ?_, ?_⟩
      · simp only [List.length_append, List.length_cons, List.length_nil]
        simp only [bAvail] at hav
        omega
      · intro hcon
        exact absurd herr (by simpa using hcon)
      · intro _
        exact ⟨herr, by simp⟩
      · intro hcon
        rw [herr] at hcon
        simp at hcon

theorem wPost_refl (b : BufioWriter) (h : bwInv b) : wPost b b [] := by
  refine ⟨h, rfl, ?_, fun _ => rfl⟩
  intro hok
  exact ⟨hok, by simp⟩

theorem wPost_comp (b b1 b2 : BufioWriter) (s1 s2 : Str)
    (h1 : wPost b b1 s1) (h2 : wPost b1 b2 s2) : wPost b b2 (s1 ++ s2) := by
  obtain ⟨hi1, hc1, hct1, hst1⟩ := h1
  obtain ⟨hi2, hc2, hct2, hst2⟩ := h2
  refine ⟨hi2, hc2.trans hc1, ?_, ?_⟩
  · intro hok
    obtain ⟨he1, heq2⟩ := hct2 hok
    obtain ⟨he0, heq1⟩ := hct1 he1
    refine ⟨he0, ?_⟩
    rw [heq2, ← List.append_assoc, heq1]
  · intro hne
    have hb1 : b1 = b := hst1 hne
    have : b1.err ≠ none := by rw [hb1]; exact hne
    rw [hst2 this, hb1]

theorem wPost_extend (b b1 : BufioWriter) (s1 s2 : Str)
    (h1 : wPost b b1 s1) (hne : b1.err ≠ none) : wPost b b1 (s1 ++ s2) := by
  obtain ⟨hi1, hc1, hct1, hst1⟩ := h1
  exact ⟨hi1, hc1, fun hok => absurd hok hne, hst1⟩

theorem writeEol_wPost (u : Bool) (b : BufioWriter) (h : bwInv b) :
    wPost b (writeEol u b) (eolStr u) := by
  unfold writeEol eolStr
  cases u with
  | false => simpa using writeByte_wPost b '\n' h
  | true => simpa using writeString_wPost b (strL "\r\n") h

theorem wPost_err_of_stick (b b1 : BufioWriter) (s : Str) (h : wPost b b1 s)
    (hne : b.err ≠ none) : b1.err ≠ none := by
  rw [h.2.2.2 hne]
  exact hne

theorem whFields_wPost (comma : Str) (quote : Bool) (fs : List Str) :
    ∀ (b : BufioWriter) (first : Bool), bwInv b →
      wPost b (whFields b comma quote first fs) (renderHFields comma quote first fs) := by
  induction fs with
  | nil =>
    intro b first h
    simpa [whFields, renderHFields] using wPost_refl b h
  | cons f fs ih =>
    intro b first h
    simp only [whFields, renderHFields]
    have h1 : wPost b (if first then b else writeString b comma)
        (if first then [] else comma) := by
      cases first with
      | false => simpa using writeString_wPost b comma h
      | true => simpa using wPost_refl b h
    set b1 := if first then b else writeString b comma with hb1
    by_cases he1 : b1.err ≠ none
    · rw [if_pos he1]
      have hext := wPost_extend b b1 _
        ((if quote then '"' :: (f ++ ['"']) else f) ++ renderHFields comma quote false fs)
        h1 he1
      simpa [List.append_assoc] using hext
    · rw [if_neg he1]
      have h2 : wPost b1 (writeString b1 (if quote then '"' :: (f ++ ['"']) else f))
          (if quote then '"' :: (f ++ ['"']) else f) := writeString_wPost b1 _ h1.1
      set b2 := writeString b1 (if quote then '"' :: (f ++ ['"']) else f) with hb2
      by_cases he2 : b2.err ≠ none
      · rw [if_pos he2]
        have := wPost_comp b b1 b2 _ _ h1 h2
        have hext := wPost_extend b b2 _ (renderHFields comma quote false fs) this he2
        simpa [List.append_assoc] using hext
      · rw [if_neg he2]
        have h3 := ih b2 false h2.1
        have := wPost_comp b b1 b2 _ _ h1 h2
        have := wPost_comp b b2 _ _ _ this h3
        simpa [List.append_assoc] using this

theorem wrFields_wPost (comma : Str) (fmt : Char) (vs : List GoFloat) :
    ∀ (b : BufioWriter) (first : Bool), bwInv b →
      wPost b (wrFields b comma fmt first vs) (renderRFields comma fmt first vs) := by
  induction vs with
  | nil =>
    intro b first h
    simpa [wrFields, renderRFields] using wPost_refl b h
  | cons v vs ih =>
    intro b first h
    simp only [wrFields, renderRFields]
    have h1 : wPost b (if first then b else writeString b comma)
        (if first then [] else comma) := by
      cases first with
      | false => simpa using writeString_wPost b comma h
      | true => simpa using wPost_refl b h
    set b1 := if first then b else writeString b comma with hb1
    by_cases he1 : b1.err ≠ none
    · rw [if_pos he1]
      have hext := wPost_extend b b1 _
        (formatFloat fmt v ++ renderRFields comma fmt false vs) h1 he1
      simpa [List.append_assoc] using hext
    · rw [if_neg he1]
      have h2 : wPost b1 (writeString b1 (formatFloat fmt v)) (formatFloat fmt v) :=
        writeString_wPost b1 _ h1.1
      set b2 := writeString b1 (formatFloat fmt v) with hb2
      by_cases he2 : b2.err ≠ none
      · rw [if_pos he2]
        have := wPost_comp b b1 b2 _ _ h1 h2
        have hext := wPost_extend b b2 _ (renderRFields comma fmt false vs) this he2
        simpa [List.append_assoc] using hext
      · rw [if_neg he2]
        have h3 := ih b2 false h2.1
        have := wPost_comp b b1 b2 _ _ h1 h2
        have := wPost_comp b b2 _ _ _ this h3
        simpa [List.append_assoc] using this

theorem writeHeading_wPost (w : Writer) (hs : List Str) (h : bwInv w.w) :
    wPost w.w (writeHeading w hs).w (renderHeading w hs) ∧
    configEq (writeHeading w hs) w := by
  unfold writeHeading renderHeading
  have h1 := whFields_wPost w.comma w.quoteHeading hs w.w true h
  set b1 := whFields w.w w.comma w.quoteHeading true hs with hb1
  by_cases he1 : b1.err ≠ none
  · rw [if_pos he1]
    exact ⟨wPost_extend _ _ _ _ h1 he1, ⟨rfl, rfl, rfl, rfl⟩⟩
  · rw [if_neg he1]
    have h2 := writeEol_wPost w.useCRLF b1 h1.1
    exact ⟨wPost_comp _ _ _ _ _ h1 h2, ⟨rfl, rfl, rfl, rfl⟩⟩

theorem write_wPost (w : Writer) (rec : List GoFloat) (h : bwInv w.w) :
    wPost w.w (write w rec).w (renderRecord w rec) ∧ configEq (write w rec) w := by
  unfold write renderRecord
  have h1 := wrFields_wPost w.comma w.floatFmt rec w.w true h
  set b1 := wrFields w.w w.comma w.floatFmt true rec with hb1
  by_cases he1 : b1.err ≠ none
  · rw [if_pos he1]
    exact ⟨wPost_extend _ _ _ _ h1 he1, ⟨rfl, rfl, rfl, rfl⟩⟩
  · rw [if_neg he1]
    have h2 := writeEol_wPost w.useCRLF b1 h1.1
    exact ⟨wPost_comp _ _ _ _ _ h1 h2, ⟨rfl, rfl, rfl, rfl⟩⟩

theorem renderRecord_congr (w1 w : Writer) (hc : configEq w1 w) (rec : List GoFloat) :
    renderRecord w1 rec = renderRecord w rec := by
  obtain ⟨h1, h2, h3, h4⟩ := hc
  unfold renderRecord
  rw [h1, h2, h4]

theorem configEq_trans (w2 w1 w : Writer) (h1 : configEq w2 w1) (h2 : configEq w1 w) :
    configEq w2 w :=
  ⟨h1.1.trans h2.1, h1.2.1.trans h2.2.1, h1.2.2.1.trans h2.2.2.1, h1.2.2.2.trans h2.2.2.2⟩

theorem waRows_wPost (m : Dense) (is : List Nat) :
    ∀ (w : Writer), bwInv w.w →
      wPost w.w (waRows w m is).w (renderRows w m is) ∧ configEq (waRows w m is) w := by
  induction is with
  | nil =>
    intro w h
    constructor
    · simpa [waRows, renderRows] using wPost_refl w.w h
    · exact ⟨rfl, rfl, rfl, rfl⟩
  | cons i is ih =>
    intro w h
    simp only [waRows]
    obtain ⟨h1, hc1⟩ := write_wPost w (rowView m i) h
    have hrows : renderRows w m (i :: is) =
        renderRecord w (rowView m i) ++ renderRows w m is := by
      simp [renderRows]
    set w1 := write w (rowView m i) with hw1
    by_cases he1 : w1.w.err ≠ none
    · rw [if_pos he1]
      rw [hrows]
      exact ⟨wPost_extend _ _ _ _ h1 he1, hc1⟩
    · rw [if_neg he1]
      obtain ⟨h2, hc2⟩ := ih w1 h1.1
      have hrr : renderRows w1 m is = renderRows w m is := by
        unfold renderRows
        congr 1
        exact List.map_congr_left fun i _ => renderRecord_congr w1 w hc1 _
      rw [hrows]
      refine ⟨?_, configEq_trans _ _ _ hc2 hc1⟩
      have := wPost_comp _ _ _ _ _ h1 h2
      rwa [hrr] at this

theorem readAllLoop_err (r : Reader) (d : Option (List GoFloat)) (e : GoErr)
    (r1 : Reader) (h : read r = ((d, some e), r1)) :
    readAllLoop r = (.error e, r1) := by
  rcases d with _ | d <;> simp only [readAllLoop, readAllLoopF, h]

theorem readAllLoop_end (r : Reader) (r1 : Reader)
    (h : read r = ((none, none), r1)) :
    readAllLoop r = (.ok [], r1) := by
  simp only [readAllLoop, readAllLoopF, h]

/-! ### Lemmas on the heading search -/

theorem scanHeadingLine_skips (comment : Str) (ls : List Str) :
    ∀ (last : Str), (∀ l ∈ ls, skippable comment l) →
      scanHeadingLine comment last ls = (ls.getLastD last, [], false) := by
  induction ls with
  | nil => intro last h; rfl
  | cons l rest ih =>
    intro last h
    simp only [scanHeadingLine]
    by_cases hnil : l = []
    · rw [if_pos hnil, ih l (fun x hx => h x (List.mem_cons_of_mem l hx))]
      rw [List.getLastD_cons]
    · rcases h l (List.mem_cons_self l rest) with hc | hc
      · exact absurd hc hnil
      · rw [if_neg hnil, if_pos hc, ih l (fun x hx => h x (List.mem_cons_of_mem l hx))]
        rw [List.getLastD_cons]

theorem scanHeadingLine_found (comment last l : Str) (rest : List Str)
    (h : ¬ skippable comment l) :
    scanHeadingLine comment last (l :: rest) = (l, rest, true) := by
  simp only [scanHeadingLine]
  rw [if_neg (fun hc => h (Or.inl hc)), if_neg (fun hc => h (Or.inr hc))]

/-! ### Congruence of `read` in the non-blank tokens of the line -/

theorem read_congr (r : Reader) (l1 l2 : Str) (rest : List Str)
    (h : nonBlank r.comma l1 = nonBlank r.comma l2) :
    read { r with lines := l1 :: rest } = read { r with lines := l2 :: rest } := by
  rw [read_cons_eq { r with lines := l1 :: rest } l1 rest rfl,
    read_cons_eq { r with lines := l2 :: rest } l2 rest rfl]
  simp only [fprAfter, stateAfter, h]

/-! ### Field count preservation through the loop when preset -/

theorem readAllLoopF_fpr_preset (f : Nat) :
    ∀ (r : Reader) (rows : List (List GoFloat)) (r1 : Reader),
      r.fieldsPerRecord ≠ 0 → readAllLoopF f r = (.ok rows, r1) →
      r1.fieldsPerRecord = r.fieldsPerRecord := by
  induction f with
  | zero =>
    intro r rows r1 hne h
    simp only [readAllLoopF] at h
    cases h
    rfl
  | succ a ih =>
    intro r rows r1 hne h
    rcases hr : read r with ⟨⟨d, e⟩, r2⟩
    have hfpr : r2.fieldsPerRecord = r.fieldsPerRecord := by
      have := read_fpr_of_ne_zero r hne
      rwa [hr] at this
    rcases e with _ | e
    · rcases d with _ | d
      · simp only [readAllLoopF, hr] at h
        cases h
        exact hfpr
      · simp only [readAllLoopF, hr] at h
        rcases hrec : readAllLoopF a r2 with ⟨res, r3⟩
        rw [hrec] at h
        rcases res with e3 | rows2
        · simp [Except.map] at h
        · simp only [Except.map] at h
          cases h
          rw [ih r2 rows2 r1 (by rw [hfpr]; exact hne) hrec, hfpr]
    · rcases d with _ | d <;> simp [readAllLoopF, hr] at h

theorem readAll_eq (r : Reader) :
    readAll r =
      (match readAllLoop r with
       | (.error e, r1) => ((none, some e), r1)
       | (.ok rows, r1) => ((some (buildDense rows r1.fieldsPerRecord), none), r1)) := rfl

theorem readHeading_eq (r : Reader) :
    readHeading r =
      (let t := scanHeadingLine r.comment [] r.lines
       let r1 : Reader := { r with lines := t.2.1 }
       match (if t.2.2 then none else r.scanErr) with
       | some e => (([], some (.stream e)), r1)
       | none =>
         let headings := nonBlank r.comma t.1
         if r.fieldsPerRecord ≠ 0 ∧ (headings.length : Int) ≠ r.fieldsPerRecord then
           (([], some .fieldCount), r1)
         else
           ((headings.map stripQuotes, none),
            { r1 with fieldsPerRecord := (headings.length : Int), lineRead := true })) := by
  unfold readHeading
  rcases hscan : scanHeadingLine r.comment [] r.lines with ⟨line, rest, found⟩
  rfl

theorem readHeading_ok (r : Reader) (hs : List Str) (r1 : Reader)
    (h : readHeading r = ((hs, none), r1)) :
    r1.fieldsPerRecord = (hs.length : Int) ∧ r1.lineRead = true := by
  rw [readHeading_eq] at h
  rcases hscan : scanHeadingLine r.comment [] r.lines with ⟨line, rest, found⟩
  rw [hscan] at h
  simp only at h
  rcases hif : (if found then none else r.scanErr) with _ | e
  · rw [hif] at h
    simp only at h
    split at h
    · cases h
    · rename_i hcount
      rw [Prod.mk.injEq, Prod.mk.injEq] at h
      obtain ⟨⟨hh, -⟩, hr1⟩ := h
      subst hr1
      constructor
      · rw [← hh]
        simp
      · rfl
  · rw [hif] at h
    cases h

/-! ### Lemmas on the matrix copy loop -/

theorem list_set_self {α : Type} (l : List α) (i : Nat) (x : α)
    (h : l[i]? = some x) : l.set i x = l := by
  induction l generalizing i with
  | nil => simp at h
  | cons a l ih =>
    cases i with
    | zero => simp at h; simp [h]
    | succ i =>
      simp only [List.getElem?_cons_succ] at h
      simp [List.set_cons_succ, ih i h]

theorem list_set_append_len {α : Type} (l1 : List α) (a : α) (l2 : List α)
    (b : α) : (l1 ++ a :: l2).set l1.length b = l1 ++ b :: l2 := by
  induction l1 with
  | nil => simp
  | cons x l1 ih => simp [List.set_cons_succ, ih]

theorem list_getElem?_append_len {α : Type} (l1 l2 : List α) :
    (l1 ++ l2)[l1.length]? = l2[0]? := by
  induction l1 with
  | nil => simp
  | cons x l1 ih => simpa using ih

theorem dSet_dims (m : Dense) (i j : Nat) (v : GoFloat) :
    (dSet m i j v).rows = m.rows ∧ (dSet m i j v).cols = m.cols := by
  unfold dSet
  split <;> simp

theorem fillRow_dims (vs : List GoFloat) :
    ∀ (m : Dense) (i j : Nat),
      (fillRow m i j vs).rows = m.rows ∧ (fillRow m i j vs).cols = m.cols := by
  induction vs with
  | nil => intro m i j; simp [fillRow]
  | cons v vs ih =>
    intro m i j
    simp only [fillRow]
    obtain ⟨h1, h2⟩ := ih (dSet m i j v) i (j + 1)
    obtain ⟨h3, h4⟩ := dSet_dims m i j v
    exact ⟨h1.trans h3, h2.trans h4⟩

theorem fillRows_dims (rest : List (List GoFloat)) :
    ∀ (m : Dense) (i : Nat),
      (fillRows m i rest).rows = m.rows ∧ (fillRows m i rest).cols = m.cols := by
  induction rest with
  | nil => intro m i; simp [fillRows]
  | cons rec rest ih =>
    intro m i
    simp only [fillRows]
    obtain ⟨h1, h2⟩ := ih (fillRow m i 0 rec) (i + 1)
    obtain ⟨h3, h4⟩ := fillRow_dims rec m i 0
    exact ⟨h1.trans h3, h2.trans h4⟩

theorem fillRow_data (vs : List GoFloat) :
    ∀ (m : Dense) (i : Nat) (done pad : List GoFloat),
      m.data[i]? = some (done ++ pad) → pad.length = vs.length →
      (fillRow m i done.length vs).data = m.data.set i (done ++ vs) := by
  induction vs with
  | nil =>
    intro m i done pad hrow hlen
    have hpad : pad = [] := List.length_eq_zero.mp hlen
    subst hpad
    simp only [fillRow, List.append_nil] at *
    rw [list_set_self m.data i (done) hrow]
  | cons v vs ih =>
    intro m i done pad hrow hlen
    rcases pad with _ | ⟨p, pad⟩
    · simp at hlen
    · simp only [fillRow]
      have hi : i < m.data.length := by
        by_contra hge
        rw [List.getElem?_eq_none (by omega)] at hrow
        cases hrow
      have hset : dSet m i done.length v =
          { m with data := m.data.set i (done ++ v :: pad) } := by
        simp only [dSet, hrow]
        rw [list_set_append_len done p pad v]
      rw [hset]
      have hrow2 : (m.data.set i (done ++ v :: pad))[i]? = some ((done ++ [v]) ++ pad) := by
        rw [List.getElem?_set_eq_of_lt _ hi]
        simp
      have hlen2 : pad.length = vs.length := by simpa using hlen
      have := ih { m with data := m.data.set i (done ++ v :: pad) } i (done ++ [v]) pad
        hrow2 hlen2
      simp only [List.length_append, List.length_cons, List.length_nil] at this ⊢
      rw [this]
      simp [List.set_set]

theorem fillRows_data (c : Nat) (rest : List (List GoFloat)) :
    ∀ (m : Dense) (done : List (List GoFloat)) (k : Nat),
      m.data = done ++ List.replicate k (List.replicate c zeroFloat) →
      (∀ row ∈ rest, row.length = c) → rest.length ≤ k →
      (fillRows m done.length rest).data =
        done ++ rest ++ List.replicate (k - rest.length) (List.replicate c zeroFloat) := by
  induction rest with
  | nil =>
    intro m done k hdata hrows hk
    simp [fillRows, hdata]
  | cons rec rest ih =>
    intro m done k hdata hrows hk
    match k, hk with
    | k + 1, hk =>
      simp only [fillRows]
      have hrow : m.data[done.length]? = some ([] ++ List.replicate c zeroFloat) := by
        rw [hdata, list_getElem?_append_len]
        simp [List.replicate_succ]
      have hlen : (List.replicate c zeroFloat).length = rec.length := by
        simp [hrows rec (List.mem_cons_self rec rest)]
      have h1 : (fillRow m done.length 0 rec).data = m.data.set done.length ([] ++ rec) := by
        have := fillRow_data rec m done.length [] (List.replicate c zeroFloat) hrow hlen
        simpa using this
      have h2 : (fillRow m done.length 0 rec).data =
          (done ++ [rec]) ++ List.replicate k (List.replicate c zeroFloat) := by
        rw [h1, hdata, List.replicate_succ, list_set_append_len]
        simp
      have h3 := ih (fillRow m done.length 0 rec) (done ++ [rec]) k h2
        (fun row hrowm => hrows row (List.mem_cons_of_mem rec hrowm))
        (by simp only [List.length_cons] at hk; omega)
      simp only [List.length_append, List.length_cons, List.length_nil] at h3 ⊢
      rw [h3]
      simp [List.append_assoc]

theorem buildDense_spec (rows : List (List GoFloat)) (fpr : Int)
    (h : ∀ row ∈ rows, (row.length : Int) = fpr) :
    (buildDense rows fpr).data = rows ∧ (buildDense rows fpr).rows = rows.length ∧
    (buildDense rows fpr).cols = fpr.toNat := by
  have hc : ∀ row ∈ rows, row.length = fpr.toNat := by
    intro row hrow
    have := h row hrow
    omega
  unfold buildDense
  obtain ⟨hr, hcc⟩ := fillRows_dims rows (mkDense rows.length fpr.toNat) 0
  refine ⟨?_, by rw [hr]; rfl, by rw [hcc]; rfl⟩
  have := fillRows_data fpr.toNat rows (mkDense rows.length fpr.toNat) [] rows.length
    (by simp [mkDense]) hc (by omega)
  simpa using this

theorem readAllLoop_step (r : Reader) (d : List GoFloat) (r1 : Reader)
    (h : read r = ((some d, none), r1)) :
    readAllLoop r =
      ((readAllLoop r1).1.map (fun rows => d :: rows), (readAllLoop r1).2) := by
  have hlen := read_some_lines r d r1 h
  unfold readAllLoop
  have hfuel : readAllLoopF r.lines.length r1 = readAllLoopF (r1.lines.length + 1) r1 :=
    readAllLoopF_fuel _ _ _ (by omega) (by omega)
  simp only [readAllLoopF, h, hfuel]

/-! ## Claims -/

/-- C1: for every input stream from which ReadAll succeeds, the returned Table
is rectangular: every row has length equal to the established expected field
count, which is the heading token count when ReadHeading was called, the
pre-configured count when one was set, and otherwise the non-blank token count
of the first data line read. -/
theorem c1_field_count_invariant :
    (∀ (r : Reader) (m : Dense) (r1 : Reader),
      readAll r = ((some m, none), r1) →
      (∀ row ∈ m.data, (row.length : Int) = r1.fieldsPerRecord) ∧
      ((r.lineRead = true ∨ r.fieldsPerRecord ≠ 0) →
        r1.fieldsPerRecord = r.fieldsPerRecord) ∧
      (r.lineRead = false → r.fieldsPerRecord = 0 →
        r1.fieldsPerRecord =
          (match r.lines with
           | [] => (0 : Int)
           | l :: _ => ((nonBlank r.comma l).length : Int)))) ∧
    (∀ (r0 : Reader) (hs : List Str) (r1 : Reader),
      readHeading r0 = ((hs, none), r1) →
      r1.fieldsPerRecord = (hs.length : Int) ∧ r1.lineRead = true) := by
  constructor
  · intro r m r1 h
    rw [readAll_eq] at h
    rcases hloop : readAllLoop r with ⟨res, r2⟩
    rw [hloop] at h
    rcases res with e | rows
    · simp at h
    · simp only at h
      rw [Prod.mk.injEq, Prod.mk.injEq] at h
      obtain ⟨⟨hm, -⟩, hr⟩ := h
      subst hr
      have hloopF : readAllLoopF (r.lines.length + 1) r = (.ok rows, r2) := hloop
      have hrect := readAllLoopF_rect (r.lines.length + 1) r rows r2 hloopF
      obtain ⟨hdata, -, -⟩ := buildDense_spec rows r2.fieldsPerRecord hrect
      refine ⟨?_, ?_, ?_⟩
      · intro row hrow
        have hm2 : buildDense rows r2.fieldsPerRecord = m := Option.some.inj hm
        apply hrect
        rw [← hdata, hm2]
        exact hrow
      · rintro (hlr | hne)
        · exact (readAllLoopF_ok_inv _ r rows r2 hlr hloopF).1
        · exact readAllLoopF_fpr_preset _ r rows r2 hne hloopF
      · intro hlr hz
        exact readAllLoopF_establish _ r rows r2 (by omega) hlr hz hloopF
  · intro r0 hs r1 h
    exact readHeading_ok r0 hs r1 h

/-- Witness for C1 at the two-line stream 1,2 / 3,4 with a fresh reader. -/
theorem c1_field_count_invariant_witness :
    (∀ row ∈ exDense12.data, (row.length : Int) = exReader12After.fieldsPerRecord) :=
  (c1_field_count_invariant.1 exReader12 exDense12 exReader12After rfl).1

/-- C3 (code bug): with a distinct heading delimiter configured
(HeadingComma `;`, Comma `,`), ReadHeading still splits the heading line on
the field delimiter: on the line `a;b` it yields the single token `a;b`,
although splitting on the heading delimiter would yield `a`, `b`.  The source
computes the effective heading delimiter into a local (numcsv.go:60-63) and
then passes `r.Comma` to the split (numcsv.go:64), contradicting the
documented role of the `HeadingComma` field (numcsv.go:19). -/
theorem c3_heading_delimiter_ignored :
    (readHeading { newReader [strL "a;b"] none with headingComma := strL ";" }).1 =
      ([strL "a;b"], none) ∧
    nonBlank (strL ";") (strL "a;b") = [strL "a", strL "b"] := by decide

/-- C4 counterexample: the parse error carries only the offending literal, not
its field position — reading `1,x,3` (bad token at field 1) and reading
`x,2,3` (bad token at field 0) produce the identical error value, so the
error cannot identify the field position the claim promises. -/
theorem c4_counterexample :
    (read (newReader [strL "1,x,3"] none)).1 =
      (none, some (GoErr.parseFloatSyntax (strL "x"))) ∧
    (read (newReader [strL "x,2,3"] none)).1 =
      (none, some (GoErr.parseFloatSyntax (strL "x"))) := by decide

/-- C4 amended: for every data line whose non-blank token count matches the
expected field count and which contains a token that is not a valid float
literal, Read fails with the strconv parse error identifying the first such
token by value (the field position is not part of the error), and no row is
returned alongside the error. -/
theorem c4_parse_error_amended :
    ∀ (r : Reader) (line : Str) (rest : List Str) (bad : Str),
      r.lines = line :: rest →
      ((nonBlank r.comma line).length : Int) = fprAfter r line →
      (nonBlank r.comma line).find? (fun t => ¬ parseFloatOk t) = some bad →
      (read r).1 = (none, some (.parseFloatSyntax bad)) := by
  intro r line rest bad hl hcount hfind
  rw [read_cons_eq r line rest hl]
  rw [if_neg (not_ne_iff.mpr hcount)]
  rw [parseRow_first_bad _ _ hfind]

/-- Witness for the amended C4 at the scenario line 1,x,3. -/
theorem c4_parse_error_amended_witness :
    (read (newReader [strL "1,x,3"] none)).1 =
      (none, some (.parseFloatSyntax (strL "x"))) :=
  c4_parse_error_amended (newReader [strL "1,x,3"] none) (strL "1,x,3") [] (strL "x")
    rfl (by decide) (by decide)

/-- C5: on a cleanly exhausted stream Read returns the nil-row/nil-error pair
and leaves the state unchanged, so every repeated call returns the same
nil/nil signal and never again a row or an error. -/
theorem c5_eos_nil_nil :
    ∀ (r : Reader), r.lines = [] → r.scanErr = none →
      read r = ((none, none), r) ∧ ∀ n, iterRead (n + 1) r = ((none, none), r) := by
  intro r hl hs
  have hrd : read r = ((none, none), r) := by
    rw [read_nil r hl, hs]
    rfl
  refine ⟨hrd, ?_⟩
  intro n
  induction n with
  | zero => exact hrd
  | succ n ih =>
    show iterRead (n + 1) (read r).2 = ((none, none), r)
    rw [hrd]
    exact ih

/-- Witness for C5 on the empty stream. -/
theorem c5_eos_nil_nil_witness :
    read (newReader [] none) = ((none, none), newReader [] none) ∧
    ∀ n, iterRead (n + 1) (newReader [] none) = ((none, none), newReader [] none) :=
  c5_eos_nil_nil (newReader [] none) rfl rfl

/-- C9: once the expected field count is a positive number, Read does not
skip a physical line that is empty or consists only of white space and
delimiter characters: such a line has zero non-blank tokens and Read consumes
it and returns a FieldCountError (data reading has no blank-line or
comment-line skipping; that exists only in the heading search loop,
numcsv.go:47-56). -/
theorem c9_blank_line_not_skipped :
    ∀ (r : Reader) (c : Char) (line : Str) (rest : List Str),
      r.comma = [c] → r.lines = line :: rest → 0 < r.fieldsPerRecord →
      (∀ ch ∈ line, isGoSpace ch ∨ ch = c) →
      nonBlank r.comma line = [] ∧
      read r = ((none, some .fieldCount),
        { r with lines := rest, lineRead := true }) := by
  intro r c line rest hc hl hpos hws
  have hnb : nonBlank r.comma line = [] := by
    rw [hc]
    exact nonBlank_eq_nil_of_ws c line hws
  refine ⟨hnb, ?_⟩
  rw [read_cons_eq r line rest hl]
  have hfpr : fprAfter r line = r.fieldsPerRecord := by
    unfold fprAfter
    split
    · rfl
    · rw [if_neg (by omega)]
  rw [if_pos (by rw [hnb, hfpr]; simpa using by omega)]
  unfold stateAfter
  rw [hfpr]

/-- Witness for C9 on the line of blanks and commas with a preset count 2. -/
theorem c9_blank_line_not_skipped_witness :
    nonBlank (strL ",") (strL " , ,") = [] ∧
    read { newReader [strL " , ,"] none with fieldsPerRecord := 2 } =
      ((none, some .fieldCount),
       { newReader [] none with fieldsPerRecord := 2, lineRead := true }) :=
  c9_blank_line_not_skipped { newReader [strL " , ,"] none with fieldsPerRecord := 2 }
    ',' (strL " , ,") [] rfl rfl (by decide) (by decide)

/-- C10 counterexample: on a stream holding only the comment line `#c`
(comment prefix `#`, nothing pre-configured), ReadHeading does not return an
empty heading with the field count left at zero — the exhausted scan loop
leaves the last comment line in the line variable, and its tokens become the
heading, establishing field count 1. -/
theorem c10_counterexample :
    (readHeading { newReader [strL "#c"] none with comment := strL "#" }).1.1 ≠ [] ∧
    (readHeading { newReader [strL "#c"] none with comment := strL "#" }).1.2 = none ∧
    (readHeading { newReader [strL "#c"] none with comment := strL "#" }).2.fieldsPerRecord
      = 1 := by decide

/-- C10 amended: if the stream ends cleanly before ReadHeading finds a usable
line, the leftover line variable (empty for an empty stream or when the last
skipped line was blank; the text of the last comment line otherwise) is
tokenized as the heading: when a non-zero pre-configured count disagrees with
that token count ReadHeading returns a FieldCountError and leaves the count
and the first-line flag untouched; otherwise it returns those tokens
(possibly empty) with a nil error, establishes the count from them, and marks
the first line consumed. -/
theorem c10_heading_eos_amended :
    ∀ (r : Reader), r.scanErr = none → (∀ l ∈ r.lines, skippable r.comment l) →
      (¬(r.fieldsPerRecord ≠ 0 ∧
          ((nonBlank r.comma (r.lines.getLastD [])).length : Int) ≠ r.fieldsPerRecord) →
        readHeading r =
          (((nonBlank r.comma (r.lines.getLastD [])).map stripQuotes, none),
           { r with lines := [], fieldsPerRecord := ((nonBlank r.comma (r.lines.getLastD [])).length : Int), lineRead := true })) ∧
      (r.fieldsPerRecord ≠ 0 →
        ((nonBlank r.comma (r.lines.getLastD [])).length : Int) ≠ r.fieldsPerRecord →
        readHeading r = (([], some .fieldCount), { r with lines := [] })) := by
  intro r hs hskip
  have hscan := scanHeadingLine_skips r.comment r.lines [] hskip
  constructor
  · intro hno
    rw [readHeading_eq, hscan]
    simp only [hs, Bool.false_eq_true, if_false]
    rw [if_neg hno]
  · intro hne hcount
    rw [readHeading_eq, hscan]
    simp only [hs, Bool.false_eq_true, if_false]
    rw [if_pos (And.intro hne hcount)]

/-- Witness for the amended C10 on a blank line followed by the comment line
`#c`. -/
theorem c10_heading_eos_amended_witness :
    readHeading { newReader [[], strL "#c"] none with comment := strL "#" } =
      (([strL "#c"], none),
       { newReader [] none with comment := strL "#", fieldsPerRecord := 1, lineRead := true }) :=
  (c10_heading_eos_amended { newReader [[], strL "#c"] none with comment := strL "#" }
    rfl (by decide)).1 (by decide)

/-- C6: ReadAll propagates the error of the first failing Read and returns no
table alongside it (the accumulated rows are discarded); when no Read fails
it accumulates every row in input order until the nil-row/nil-error signal
and returns the full table.  Stated by the three unfolding laws of the loop:
a failing first Read propagates its error with a nil table; the nil/nil
signal ends the loop with the (so-far empty) full table; a successful Read
prepends its row to whatever the rest of the stream produces, errors of the
rest again propagating with a nil table. -/
theorem c6_readall_propagation :
    ∀ (r : Reader),
      (∀ (d : Option (List GoFloat)) (e : GoErr) (r1 : Reader),
        read r = ((d, some e), r1) → readAll r = ((none, some e), r1)) ∧
      (∀ (r1 : Reader), read r = ((none, none), r1) →
        (readAll r).2 = r1 ∧ (readAll r).1.2 = none ∧
        ∃ m, (readAll r).1.1 = some m ∧ m.data = [] ∧ m.rows = 0) ∧
      (∀ (d : List GoFloat) (r1 : Reader), read r = ((some d, none), r1) →
        (∀ (e : GoErr), (readAll r1).1.2 = some e →
          readAll r = ((none, some e), (readAll r1).2)) ∧
        (∀ (m : Dense), (readAll r1).1 = (some m, none) →
          (readAll r).1.2 = none ∧
          ∃ m2, (readAll r).1.1 = some m2 ∧ m2.data = d :: m.data)) := by
  intro r
  refine ⟨?_, ?_, ?_⟩
  · intro d e r1 h
    rw [readAll_eq, readAllLoop_err r d e r1 h]
  · intro r1 h
    rw [readAll_eq, readAllLoop_end r r1 h]
    refine ⟨rfl, rfl, buildDense [] r1.fieldsPerRecord, rfl, ?_, ?_⟩
    · exact (buildDense_spec [] r1.fieldsPerRecord (by simp)).1
    · have := (buildDense_spec [] r1.fieldsPerRecord (by simp)).2.1
      simpa using this
  · intro d r1 h
    have hstep := readAllLoop_step r d r1 h
    rcases hloop1 : readAllLoop r1 with ⟨res1, r2⟩
    rw [hloop1] at hstep
    constructor
    · intro e he
      rw [readAll_eq, hloop1] at he
      rcases res1 with e1 | rows1
      · simp only at he
        have he1 : e1 = e := by simpa using he
        subst he1
        rw [readAll_eq, hstep]
        simp only [Except.map]
        rw [readAll_eq, hloop1]
      · simp at he
    · intro m hm
      rw [readAll_eq, hloop1] at hm
      rcases res1 with e1 | rows1
      · simp at hm
      · simp only at hm
        rw [Prod.mk.injEq] at hm
        obtain ⟨hm1, -⟩ := hm
        have hm2 : buildDense rows1 r2.fieldsPerRecord = m := Option.some.inj hm1
        have hfinal : readAll r =
            ((some (buildDense (d :: rows1) r2.fieldsPerRecord), none), r2) := by
          rw [readAll_eq, hstep]
          rfl
        rw [hfinal]
        refine ⟨rfl, buildDense (d :: rows1) r2.fieldsPerRecord, rfl, ?_⟩
        have hloopF1 : readAllLoopF (r1.lines.length + 1) r1 = (.ok rows1, r2) := hloop1
        have hrect1 := readAllLoopF_rect (r1.lines.length + 1) r1 rows1 r2 hloopF1
        have hlr1 : r1.lineRead = true := (read_some r d none r1 h).2.2.2
        have hdlen : (d.length : Int) = r2.fieldsPerRecord := by
          have h1 := (read_some r d none r1 h).2.2.1
          have h2 := (readAllLoopF_ok_inv (r1.lines.length + 1) r1 rows1 r2 hlr1 hloopF1).1
          rw [h1, h2]
        have hall : ∀ row ∈ d :: rows1, (row.length : Int) = r2.fieldsPerRecord := by
          intro row hrow
          rcases List.mem_cons.mp hrow with hq | hq
          · subst hq; exact hdlen
          · exact hrect1 row hq
        rw [(buildDense_spec (d :: rows1) r2.fieldsPerRecord hall).1,
          ← hm2, (buildDense_spec rows1 r2.fieldsPerRecord hrect1).1]

/-- Witness for C6: the first Read of the stream holding the single line `a`
fails to parse, and ReadAll propagates that error with a nil table. -/
theorem c6_readall_propagation_witness :
    readAll (newReader [strL "a"] none) =
      ((none, some (.parseFloatSyntax (strL "a"))),
       { newReader [] none with fieldsPerRecord := 1, lineRead := true }) :=
  ((c6_readall_propagation (newReader [strL "a"] none)).1
    none (.parseFloatSyntax (strL "a"))
    { newReader [] none with fieldsPerRecord := 1, lineRead := true } (by decide))

/-- C7: a data line is tokenized by splitting on the delimiter, trimming each
token, and dropping tokens that are blank after trimming — so two lines whose
delimiter-separated pieces agree after discarding whitespace-only pieces
produce the same non-blank tokens, and Read behaves identically on them: in
particular extra delimiters adjacent only to whitespace (leading, trailing or
interior) change neither the token count nor the presence of a
FieldCountError.  The heading line computes its tokens with the same
`nonBlank` function (numcsv.go:64-70). -/
theorem c7_whitespace_tolerance :
    ∀ (c : Char) (ms1 ms2 : List Str),
      (∀ p ∈ ms1, c ∉ p) → (∀ p ∈ ms2, c ∉ p) →
      (ms1.map trimSpace).filter (fun t => t ≠ []) =
        (ms2.map trimSpace).filter (fun t => t ≠ []) →
      nonBlank [c] (joinSep [c] ms1) = nonBlank [c] (joinSep [c] ms2) ∧
      ∀ (r : Reader) (rest : List Str), r.comma = [c] →
        read { r with lines := joinSep [c] ms1 :: rest } =
          read { r with lines := joinSep [c] ms2 :: rest } := by
  intro c ms1 ms2 h1 h2 heq
  have hnb : nonBlank [c] (joinSep [c] ms1) = nonBlank [c] (joinSep [c] ms2) := by
    rw [nonBlank_joinSep c ms1 h1, nonBlank_joinSep c ms2 h2, heq]
  refine ⟨hnb, ?_⟩
  intro r rest hc
  apply read_congr
  rw [hc]
  exact hnb

/-- Witness for C7: the lines 1.0, 2.0 and 1.0, , 2.0, (an interior
whitespace field and a trailing delimiter added) tokenize identically and
Read treats them identically. -/
theorem c7_whitespace_tolerance_witness :
    nonBlank [','] (joinSep [','] [strL "1.0", strL " 2.0"]) =
      nonBlank [','] (joinSep [','] [strL "1.0", strL " ", strL " 2.0", strL ""]) ∧
    ∀ (r : Reader) (rest : List Str), r.comma = [','] →
      read { r with lines := joinSep [','] [strL "1.0", strL " 2.0"] :: rest } =
        read { r with lines := joinSep [','] [strL "1.0", strL " ", strL " 2.0", strL ""] :: rest } :=
  c7_whitespace_tolerance ',' [strL "1.0", strL " 2.0"]
    [strL "1.0", strL " ", strL " 2.0", strL ""] (by decide) (by decide) (by decide)

theorem whFields_single (b : BufioWriter) (comma : Str) (f : Str)
    (herr : b.err = none) :
    whFields b comma false true [f] = writeString b f := by
  simp only [whFields, if_true, Bool.false_eq_true, if_false]
  rw [if_neg (by simp [herr])]
  split <;> rfl

theorem writeHeading_err (w : Writer) (heading : List Str)
    (h : (whFields w.w w.comma w.quoteHeading true heading).err ≠ none) :
    writeHeading w heading =
      { w with w := whFields w.w w.comma w.quoteHeading true heading } := by
  unfold writeHeading
  rw [if_pos h]

theorem writeAll_head_err (w : Writer) (hs : List Str) (m : Dense)
    (h : (writeHeading w hs).w.err ≠ none) :
    writeAll w (some hs) m = writeHeading w hs := by
  show waFinish (writeHeading w hs) m = writeHeading w hs
  unfold waFinish
  rw [if_pos h]

theorem renderRows_congr (w1 w : Writer) (hc : configEq w1 w) (m : Dense)
    (is : List Nat) : renderRows w1 m is = renderRows w m is := by
  unfold renderRows
  congr 1
  exact List.map_congr_left fun i _ => renderRecord_congr w1 w hc _

theorem waFinish_spec (w : Writer) (m : Dense) (w1 : Writer) (head : Str)
    (hpost : wPost w.w w1.w head) (hcfg : configEq w1 w) :
    ((waFinish w1 m).w.err = none →
      (waFinish w1 m).w.out =
        w.w.out ++ w.w.buf ++ (head ++ renderRows w m (List.range m.rows)) ∧
      (waFinish w1 m).w.buf = []) ∧
    ((waFinish w1 m).w.err ≠ none → (waFinish w1 m).w.buf ≠ []) := by
  unfold waFinish
  by_cases he1 : w1.w.err ≠ none
  · rw [if_pos he1]
    exact ⟨fun hok => absurd hok he1, fun _ => hpost.1.2.2 he1⟩
  · rw [if_neg he1]
    obtain ⟨h2, hc2⟩ := waRows_wPost m (List.range m.rows) w1 hpost.1
    have hcomp := wPost_comp w.w w1.w (waRows w1 m (List.range m.rows)).w head
      (renderRows w1 m (List.range m.rows)) hpost h2
    by_cases he2 : (waRows w1 m (List.range m.rows)).w.err ≠ none
    · rw [if_pos he2]
      exact ⟨fun hok => absurd hok he2, fun _ => hcomp.1.2.2 he2⟩
    · rw [if_neg he2]
      constructor
      · intro hok
        obtain ⟨hprev, hout3, hbuf3⟩ := bFlush_ok (waRows w1 m (List.range m.rows)).w hok
        obtain ⟨-, heq⟩ := hcomp.2.2.1 hprev
        refine ⟨?_, hbuf3⟩
        rw [hout3, heq]
        rw [renderRows_congr w1 w hcfg m (List.range m.rows)]
      · intro hne
        have he2n : (waRows w1 m (List.range m.rows)).w.err = none := not_ne_iff.mp he2
        obtain ⟨hbuf3, hbne, -⟩ := bFlush_fail (waRows w1 m (List.range m.rows)).w he2n hne
        rw [hbuf3]
        exact hbne

/-- C8 amended: WriteAll writes the heading first when non-nil, then every
row of the table in order (on a clean run the delivered bytes are exactly the
prior content followed by the rendered heading and rows, with the buffer
empty — the final `Flush` ran); but the flush happens only on the error-free
exit: on an exit caused by an underlying write error, WriteAll returns with
the buffered bytes undelivered. -/
theorem c8_writeall_amended :
    ∀ (w : Writer) (hs : Option (List Str)) (m : Dense), bwInv w.w →
      ((writeAll w hs m).w.err = none →
        (writeAll w hs m).w.out = w.w.out ++ w.w.buf ++ renderAll w hs m ∧
        (writeAll w hs m).w.buf = []) ∧
      ((writeAll w hs m).w.err ≠ none → (writeAll w hs m).w.buf ≠ []) := by
  intro w hs m hinv
  rcases hs with _ | hlist
  · have h := waFinish_spec w m w [] (wPost_refl w.w hinv) ⟨rfl, rfl, rfl, rfl⟩
    simpa [renderAll, writeAll] using h
  · obtain ⟨hpost, hcfg⟩ := writeHeading_wPost w hlist hinv
    have h := waFinish_spec w m (writeHeading w hlist) (renderHeading w hlist) hpost hcfg
    simpa [renderAll, writeAll] using h

/-- Witness for the amended C8: a healthy sink, heading a, b and the 2 x 2
table — WriteAll delivers exactly the rendered heading and rows and leaves
the buffer empty. -/
theorem c8_writeall_amended_witness :
    ((writeAll (newWriter []) (some [strL "a", strL "b"]) exDense12).w.err = none →
      (writeAll (newWriter []) (some [strL "a", strL "b"]) exDense12).w.out =
        (newWriter []).w.out ++ (newWriter []).w.buf ++
          renderAll (newWriter []) (some [strL "a", strL "b"]) exDense12 ∧
      (writeAll (newWriter []) (some [strL "a", strL "b"]) exDense12).w.buf = []) ∧
    ((writeAll (newWriter []) (some [strL "a", strL "b"]) exDense12).w.err ≠ none →
      (writeAll (newWriter []) (some [strL "a", strL "b"]) exDense12).w.buf ≠ []) :=
  c8_writeall_amended (newWriter []) (some [strL "a", strL "b"]) exDense12
    (by constructor <;> simp [newWriter])

/-- C8 counterexample: a sink that rejects the first underlying write and a
heading field one byte longer than the 4096-byte bufio buffer — WriteAll
returns with the write error set and 4096 bytes still sitting in the buffer:
the buffered output is not flushed on this error exit path. -/
theorem c8_counterexample :
    (writeAll (newWriter [false]) (some [List.replicate 4097 'a']) (mkDense 0 0)).w.err
      ≠ none ∧
    (writeAll (newWriter [false]) (some [List.replicate 4097 'a']) (mkDense 0 0)).w.buf
      ≠ [] := by
  have hws := writeString_overflow_sinkfail
    { cap := 4096, buf := [], out := [], sched := [false], err := none }
    (List.replicate 4097 'a') [] rfl rfl (by norm_num)
    (by rw [List.length_replicate]; norm_num) rfl
  have hfields : whFields (newWriter [false]).w (newWriter [false]).comma
      (newWriter [false]).quoteHeading true [List.replicate 4097 'a'] =
      { cap := 4096, buf := (List.replicate 4097 'a').take 4096, out := [], sched := [],
        err := some sinkErr } := by
    show whFields { cap := 4096, buf := [], out := [], sched := [false], err := none }
      (strL ",") false true [List.replicate 4097 'a'] = _
    rw [whFields_single _ _ _ rfl, hws]
  have hwh : writeHeading (newWriter [false]) [List.replicate 4097 'a'] =
      { newWriter [false] with w := { cap := 4096, buf := (List.replicate 4097 'a').take 4096, out := [], sched := [], err := some sinkErr } } := by
    rw [writeHeading_err _ _ (by rw [hfields]; exact fun hcon => Option.noConfusion hcon)]
    rw [hfields]
  have hwa : writeAll (newWriter [false]) (some [List.replicate 4097 'a']) (mkDense 0 0) =
      { newWriter [false] with w := { cap := 4096, buf := (List.replicate 4097 'a').take 4096, out := [], sched := [], err := some sinkErr } } := by
    rw [writeAll_head_err _ _ _ (by rw [hwh]; exact fun hcon => Option.noConfusion hcon)]
    exact hwh
  rw [hwa]
  constructor
  · exact fun hcon => Option.noConfusion hcon
  · have hb : ({ newWriter [false] with w := { cap := 4096, buf := (List.replicate 4097 'a').take 4096, out := [], sched := [], err := some sinkErr } } : Writer).w.buf = (List.replicate 4097 'a').take 4096 := rfl
    rw [hb, List.take_replicate, show min 4096 4097 = 4096 from rfl]
    intro hcon
    have hlen := congrArg List.length hcon
    rw [List.length_replicate] at hlen
    exact absurd hlen (by decide)

end Numcsv
